import Mathlib

set_option maxHeartbeats 1000000

namespace DocGen

/-- A source line, modelled as its list of characters.  Per the input contract
the line sequence is already newline-split, so a line holds no newline
character; under that assumption the regex dot and the `$` anchor reduce to
plain list operations. -/
abbrev Line := List Char

/-- ASCII whitespace, as in Python's `str.strip` and the regex class `\s`. -/
def isWs (c : Char) : Bool :=
  c == ' ' || c == '\t' || c == '\n' || c == '\r' || c == '\x0b' || c == '\x0c'

/-- The regex class `\w` (inputs are ASCII). -/
def isWordChar (c : Char) : Bool := c.isAlphanum || c == '_'

/-- Python `str.lstrip()`. -/
def lstrip (l : Line) : Line := l.dropWhile isWs

/-- Python `str.rstrip()`. -/
def rstrip (l : Line) : Line := (l.reverse.dropWhile isWs).reverse

/-- Python `str.strip()`. -/
def strip (l : Line) : Line := rstrip (lstrip l)

/-- Leading-whitespace count: `len(line) - len(line.lstrip())`, which is also
the width of the regex group `^(\s*)`. -/
def indentOf (l : Line) : Nat := (l.takeWhile isWs).length

/-- Python `not line.strip()`. -/
def isBlank (l : Line) : Bool := (strip l).isEmpty

/-- Python `line.strip().startswith("#")`. -/
def isComment (l : Line) : Bool :=
  match strip l with
  | '#' :: _ => true
  | _ => false

/-- The part of `GET_FUNC` after `def\s+`, namely `(\w+)\s*\(.*?\)\s*`: a
nonempty word-character run, optional whitespace, an opening parenthesis, and
some later closing parenthesis (the lazy `.*?\)` only requires existence, and
the trailing `\s*` always matches). -/
def funcTail (r : Line) : Bool :=
  if (r.takeWhile isWordChar).isEmpty then false
  else
    match lstrip (r.dropWhile isWordChar) with
    | '(' :: rest => rest.contains ')'
    | _ => false

/-- `re.match(GET_FUNC, line)` where `GET_FUNC = ^(\s*)def\s+(\w+)\s*\(.*?\)\s*`. -/
def matchFunc (l : Line) : Bool :=
  match lstrip l with
  | 'd' :: 'e' :: 'f' :: rest =>
    match rest with
    | c :: _ => isWs c && funcTail (lstrip rest)
    | [] => false
  | _ => false

/-- After `class\s+` the pattern `(\w+)(?:\s*\([^)]*\))?\s*` only requires a
nonempty word-character run; the base-list group and trailing `\s*` are
optional. -/
def classTail (r : Line) : Bool := !(r.takeWhile isWordChar).isEmpty

/-- `re.match(GET_CLASS, line)` where
`GET_CLASS = ^(\s*)class\s+(\w+)(?:\s*\([^)]*\))?\s*`. -/
def matchClass (l : Line) : Bool :=
  match lstrip l with
  | 'c' :: 'l' :: 'a' :: 's' :: 's' :: rest =>
    match rest with
    | c :: _ => isWs c && classTail (lstrip rest)
    | [] => false
  | _ => false

inductive TokenType where
  | FUNC_SIGNATURE
  | CLASS_NAME
deriving DecidableEq

structure Token where
  content : Line
  type : TokenType
deriving DecidableEq

inductive DocumentNode where
  | mk (identifier : Token) (description : Option Line)
      (children : List DocumentNode) (indent_level : Nat)

def DocumentNode.identifier : DocumentNode → Token
  | .mk t _ _ _ => t

def DocumentNode.description : DocumentNode → Option Line
  | .mk _ d _ _ => d

def DocumentNode.children : DocumentNode → List DocumentNode
  | .mk _ _ c _ => c

def DocumentNode.indent_level : DocumentNode → Nat
  | .mk _ _ _ i => i

def tripleD : Line := ['"', '"', '"']

def tripleS : Line := ['\'', '\'', '\'']

/-- The single-line docstring regex `^qqq(.*?)qqq$` (with DOTALL) on the
stripped candidate: an opening and a non-overlapping closing delimiter with
arbitrary enclosed text. -/
def singleMatch (q : Line) (s : Line) : Bool :=
  q.isPrefixOf s && q.isSuffixOf s && decide (6 ≤ s.length)

/-- The group captured by the single-line docstring pattern. -/
def midOf (s : Line) : Line := (s.drop 3).take (s.length - 6)

/-- Occurrence of `q` as a contiguous substring of `l` (Python `in`). -/
def hasSub (q : Line) : Line → Bool
  | [] => q.isEmpty
  | c :: t => q.isPrefixOf (c :: t) || hasSub q t

/-- Python `'"""' in line or "'''" in line`. -/
def containsTriple (l : Line) : Bool := hasSub tripleD l || hasSub tripleS l

/-- The scanning loop of the multi-line branch of `extract_docstring`
(src/parser.py lines 61-66), with explicit fuel; it appends each stripped line
and stops after a line whose stripped text ends with the opening delimiter.
Both exits return Python's `idx + 1`. -/
def scanCloseF : Nat → List Line → Nat → Line → List Line → List Line × Nat
  | 0, _, idx, _, acc => (acc, idx + 1)
  | f + 1, lines, idx, q, acc =>
    if idx < lines.length then
      let cur := strip (lines.getD idx [])
      if q.isSuffixOf cur then (acc ++ [cur], idx + 1)
      else scanCloseF f lines (idx + 1) q (acc ++ [cur])
    else (acc, idx + 1)

def scanClose (lines : List Line) (idx : Nat) (q : Line) (acc : List Line) :
    List Line × Nat :=
  scanCloseF lines.length lines idx q acc

/-- Python `"\n".join(...)`. -/
def joinNL (ls : List Line) : Line := List.intercalate ['\n'] ls

/-- `extract_docstring` from src/parser.py: the two single-line patterns are
tried first (both rebuild the result as `"""` + group + `"""`), then the two
multi-line opening patterns, else no docstring and no consumed line. -/
def extract_docstring (lines : List Line) (start_idx : Nat) : Option Line × Nat :=
  if start_idx < lines.length then
    let line := strip (lines.getD start_idx [])
    if singleMatch tripleD line then
      (some (tripleD ++ midOf line ++ tripleD), start_idx + 1)
    else if singleMatch tripleS line then
      (some (tripleD ++ midOf line ++ tripleD), start_idx + 1)
    else if tripleD.isPrefixOf line then
      let r := scanClose lines (start_idx + 1) tripleD [line]
      (some (joinNL r.1), r.2)
    else if tripleS.isPrefixOf line then
      let r := scanClose lines (start_idx + 1) tripleS [line]
      (some (joinNL r.1), r.2)
    else (none, start_idx)
  else (none, start_idx)

/-- The blank-skipping loop of `parse` (src/parser.py lines 107-108), fueled. -/
def skipBlankF : Nat → List Line → Nat → Nat
  | 0, _, i => i
  | f + 1, lines, i =>
    if i < lines.length then
      if isBlank (lines.getD i []) then skipBlankF f lines (i + 1) else i
    else i

def skipBlank (lines : List Line) (i : Nat) : Nat := skipBlankF lines.length lines i

/-- The body-collecting loop of `parse` (src/parser.py lines 127-141), fueled:
blank lines are always appended, a non-blank line at indentation at most
`indent` stops the scan unconsumed, deeper lines are appended. -/
def collectBodyF : Nat → List Line → Nat → Nat → List Line × Nat
  | 0, _, idx, _ => ([], idx)
  | f + 1, lines, idx, indent =>
    if idx < lines.length then
      let cur := lines.getD idx []
      if isBlank cur then
        let r := collectBodyF f lines (idx + 1) indent
        (cur :: r.1, r.2)
      else if indentOf cur ≤ indent then ([], idx)
      else
        let r := collectBodyF f lines (idx + 1) indent
        (cur :: r.1, r.2)
    else ([], idx)

def collectBody (lines : List Line) (idx indent : Nat) : List Line × Nat :=
  collectBodyF lines.length lines idx indent

/-- Lines 104-115 of `parse`: skip blank lines after the definition, test the
guard (`next_line_indent > indent` and a triple quote occurs in the raw line),
and if it holds run the extractor.  Returns the optional docstring together
with Python's `next_idx`. -/
def attachDoc (lines : List Line) (i indent : Nat) : Option Line × Nat :=
  let n := skipBlank lines (i + 1)
  if n < lines.length then
    let cand := lines.getD n []
    if indent < indentOf cand && containsTriple cand then extract_docstring lines n
    else (none, n)
  else (none, n)

/-- Python truthiness of the optional docstring (`if docstring`): false for
`None` and for the empty string. -/
def truthy (o : Option Line) : Bool := !(o.getD []).isEmpty

/-- The main loop of `parse` from position `i`, with explicit fuel; fuel
`lines.length + 1` always suffices (proved below).  Mirrors src/parser.py
lines 78-152: skip blank/comment lines, classify, stop on a definition at or
below the parent floor, attach a docstring, collect the deeper body range,
recurse on it for children, and resume after the body. -/
def parseFromF : Nat → List Line → Int → Nat → List DocumentNode
  | 0, _, _, _ => []
  | f + 1, lines, parent_indent, i =>
    if i < lines.length then
      let line := lines.getD i []
      if isBlank line || isComment line then parseFromF f lines parent_indent (i + 1)
      else if matchFunc line || matchClass line then
        let indent := indentOf line
        if 0 ≤ parent_indent ∧ (indent : Int) ≤ parent_indent then []
        else
          let tok := if matchFunc line then TokenType.FUNC_SIGNATURE else TokenType.CLASS_NAME
          let dn := attachDoc lines i indent
          let start := if truthy dn.1 then dn.2 else i + 1
          let bc := collectBody lines start indent
          let children :=
            if bc.1.any (fun l => !isBlank l) then parseFromF f bc.1 (indent : Int) 0 else []
          DocumentNode.mk (Token.mk (strip line) tok) dn.1 children indent ::
            parseFromF f lines parent_indent bc.2
      else parseFromF f lines parent_indent (i + 1)
    else []

/-- `parse` from src/parser.py. -/
def parse (lines : List Line) (parent_indent : Int := -1) : List DocumentNode :=
  parseFromF (lines.length + 1) lines parent_indent 0

/-- Shorthand for building concrete lines. -/
def str (s : String) : Line := s.data

example :
    parse [str "def f():"] =
      [DocumentNode.mk (Token.mk (str "def f():") TokenType.FUNC_SIGNATURE) none [] 0] := rfl

example :
    parse [str "class A:", str "    def m(self):", str "        pass"] =
      [DocumentNode.mk (Token.mk (str "class A:") TokenType.CLASS_NAME) none
        [DocumentNode.mk (Token.mk (str "def m(self):") TokenType.FUNC_SIGNATURE) none [] 4] 0] := rfl

example :
    parse [str "def f():", str "    \"\"\"doc\"\"\"", str "    return 1"] =
      [DocumentNode.mk (Token.mk (str "def f():") TokenType.FUNC_SIGNATURE)
        (some (str "\"\"\"doc\"\"\"")) [] 0] := rfl

/-! ## Basic facts about whitespace, stripping and the classifier patterns -/

theorem ws_not_wordChar {c : Char} (h : isWs c = true) : isWordChar c = false := by
  have hc : c = ' ' ∨ c = '\t' ∨ c = '\n' ∨ c = '\r' ∨ c = '\x0b' ∨ c = '\x0c' := by
    simpa [isWs, or_assoc] using h
  rcases hc with rfl | rfl | rfl | rfl | rfl | rfl <;> decide

theorem wordChar_not_ws {c : Char} (h : isWordChar c = true) : isWs c = false := by
  cases hw : isWs c
  · rfl
  · rw [ws_not_wordChar hw] at h
    exact absurd h (by simp)

theorem dropWhile_all_append {p : Char → Bool} {x : Line} (y : Line)
    (hx : ∀ a ∈ x, p a = true) :
    List.dropWhile p (x ++ y) = List.dropWhile p y := by
  induction x with
  | nil => rfl
  | cons a t ih =>
    rw [List.cons_append, List.dropWhile_cons_of_pos (hx a (by simp))]
    exact ih fun b hb => hx b (by simp [hb])

theorem takeWhile_all_append {p : Char → Bool} {x : Line} (y : Line)
    (hx : ∀ a ∈ x, p a = true) :
    List.takeWhile p (x ++ y) = x ++ List.takeWhile p y := by
  induction x with
  | nil => rfl
  | cons a t ih =>
    rw [List.cons_append, List.takeWhile_cons_of_pos (hx a (by simp)), ih]
    · rfl
    · exact fun b hb => hx b (by simp [hb])

theorem dropWhile_head_false {p : Char → Bool} :
    ∀ {l c t}, List.dropWhile p l = c :: t → p c = false := by
  intro l
  induction l with
  | nil => intro c t h; simp at h
  | cons a u ih =>
    intro c t h
    cases hp : p a
    · rw [List.dropWhile_cons_of_neg (by simp [hp])] at h
      cases h
      exact hp
    · rw [List.dropWhile_cons_of_pos hp] at h
      exact ih h

theorem lstrip_cons_of_not_ws {c : Char} {t : Line} (h : isWs c = false) :
    lstrip (c :: t) = c :: t :=
  List.dropWhile_cons_of_neg (by simp [h])

theorem lstrip_head_false {l : Line} {c : Char} {t : Line} (h : lstrip l = c :: t) :
    isWs c = false :=
  dropWhile_head_false h

theorem rstrip_append_cons {c : Char} (x y : Line) (h : isWs c = false) :
    rstrip (x ++ c :: y) = x ++ c :: rstrip y := by
  unfold rstrip
  have hrev : (x ++ c :: y).reverse = y.reverse ++ c :: x.reverse := by simp
  rw [hrev, List.dropWhile_append]
  by_cases hy : (List.dropWhile isWs y.reverse).isEmpty = true
  · rw [if_pos hy, List.dropWhile_cons_of_neg (by simp [h])]
    rw [List.isEmpty_iff] at hy
    simp [hy]
  · rw [if_neg hy]
    simp

theorem rstrip_cons {c : Char} (y : Line) (h : isWs c = false) :
    rstrip (c :: y) = c :: rstrip y :=
  rstrip_append_cons [] y h

theorem strip_of_lstrip_cons {l : Line} {c : Char} {t : Line} (h : lstrip l = c :: t) :
    strip l = c :: rstrip t := by
  rw [strip, h, rstrip_cons _ (lstrip_head_false h)]

theorem lstrip_strip (l : Line) : lstrip (strip l) = strip l := by
  cases h : lstrip l with
  | nil => rw [strip, h]; rfl
  | cons c t =>
    rw [strip_of_lstrip_cons h]
    exact lstrip_cons_of_not_ws (lstrip_head_false h)

theorem indentOf_strip (l : Line) : indentOf (strip l) = 0 := by
  cases h : lstrip l with
  | nil => rw [strip, h]; rfl
  | cons c t =>
    rw [strip_of_lstrip_cons h, indentOf,
      List.takeWhile_cons_of_neg (by simp [lstrip_head_false h])]
    rfl

theorem isBlank_iff {l : Line} : isBlank l = true ↔ strip l = [] := by
  rw [isBlank, List.isEmpty_iff]

theorem lstrip_eq_nil_of_blank {l : Line} (h : isBlank l = true) : lstrip l = [] := by
  cases hl : lstrip l with
  | nil => rfl
  | cons c t =>
    rw [isBlank_iff, strip_of_lstrip_cons hl] at h
    cases h

theorem eq_false_of_not_true {b : Bool} (h : ¬ b = true) : b = false := by
  cases b
  · rfl
  · exact absurd rfl h

/-! ## Substring membership -/

theorem hasSub_iff {q l : Line} : hasSub q l = true ↔ q <:+: l := by
  induction l with
  | nil =>
    simp only [hasSub, List.isEmpty_iff]
    constructor
    · intro h; simp [h]
    · intro h; exact List.eq_nil_of_infix_nil h
  | cons c t ih =>
    simp only [hasSub, Bool.or_eq_true, List.isPrefixOf_iff_prefix, ih,
      List.infix_cons_iff]

theorem strip_within (l : Line) : strip l <:+: l := by
  have h1 : lstrip l <:+ l := by
    rw [lstrip]
    exact List.dropWhile_suffix isWs
  have h2 : strip l <+: lstrip l := by
    rw [strip, rstrip]
    have := List.dropWhile_suffix (l := (lstrip l).reverse) isWs
    rw [← List.reverse_prefix] at this
    simpa using this
  exact (h2.isInfix).trans h1.isInfix

theorem containsTriple_of_prefixD {l : Line} (h : tripleD <+: strip l) :
    containsTriple l = true := by
  rw [containsTriple, Bool.or_eq_true, hasSub_iff]
  exact Or.inl (h.isInfix.trans (strip_within l))

theorem containsTriple_of_prefixS {l : Line} (h : tripleS <+: strip l) :
    containsTriple l = true := by
  rw [containsTriple, Bool.or_eq_true, hasSub_iff, hasSub_iff]
  exact Or.inr (h.isInfix.trans (strip_within l))

/-! ## Structure of classifier matches -/

theorem matchFunc_intro {l : Line} (s1 w s2 rest : Line)
    (hl : lstrip l = 'd' :: 'e' :: 'f' :: (s1 ++ (w ++ (s2 ++ '(' :: rest))))
    (hs1 : s1 ≠ []) (hs1w : ∀ a ∈ s1, isWs a = true)
    (hw : w ≠ []) (hww : ∀ a ∈ w, isWordChar a = true)
    (hs2 : ∀ a ∈ s2, isWs a = true) (hr : rest.contains ')' = true) :
    matchFunc l = true := by
  have hdw : List.dropWhile isWs (s1 ++ (w ++ (s2 ++ '(' :: rest))) =
      w ++ (s2 ++ '(' :: rest) := by
    rw [dropWhile_all_append _ hs1w]
    obtain ⟨b, w2, rfl⟩ := List.exists_cons_of_ne_nil hw
    exact List.dropWhile_cons_of_neg (by simp [wordChar_not_ws (hww b (by simp))])
  have htw : List.takeWhile isWordChar (w ++ (s2 ++ '(' :: rest)) = w := by
    rw [takeWhile_all_append _ hww]
    cases s2 with
    | nil =>
      rw [List.nil_append,
        List.takeWhile_cons_of_neg (show ¬isWordChar '(' = true by decide)]
      simp
    | cons a s2t =>
      rw [List.cons_append,
        List.takeWhile_cons_of_neg (by simp [ws_not_wordChar (hs2 a (by simp))])]
      simp
  have hdwW : List.dropWhile isWordChar (w ++ (s2 ++ '(' :: rest)) =
      s2 ++ '(' :: rest := by
    rw [dropWhile_all_append _ hww]
    cases s2 with
    | nil =>
      rw [List.nil_append]
      exact List.dropWhile_cons_of_neg (show ¬isWordChar '(' = true by decide)
    | cons a s2t =>
      rw [List.cons_append,
        List.dropWhile_cons_of_neg (by simp [ws_not_wordChar (hs2 a (by simp))])]
  have hls : lstrip (s2 ++ '(' :: rest) = '(' :: rest := by
    rw [lstrip, dropWhile_all_append _ hs2]
    exact List.dropWhile_cons_of_neg (show ¬isWs '(' = true by decide)
  obtain ⟨a, s1t, rfl⟩ := List.exists_cons_of_ne_nil hs1
  have ha : isWs a = true := hs1w a (by simp)
  rw [matchFunc, hl]
  show (isWs a && funcTail (lstrip ((a :: s1t) ++ (w ++ (s2 ++ '(' :: rest))))) = true
  rw [show lstrip ((a :: s1t) ++ (w ++ (s2 ++ '(' :: rest))) =
    w ++ (s2 ++ '(' :: rest) from hdw]
  rw [funcTail, htw, hdwW, hls]
  simp [ha, hw, List.mem_of_elem_eq_true hr]

theorem matchFunc_elim {l : Line} (h : matchFunc l = true) :
    ∃ s1 w s2 rest : Line,
      lstrip l = 'd' :: 'e' :: 'f' :: (s1 ++ (w ++ (s2 ++ '(' :: rest))) ∧
      s1 ≠ [] ∧ (∀ a ∈ s1, isWs a = true) ∧ w ≠ [] ∧
      (∀ a ∈ w, isWordChar a = true) ∧ (∀ a ∈ s2, isWs a = true) ∧
      rest.contains ')' = true := by
  unfold matchFunc at h
  split at h
  case h_2 => cases h
  case h_1 x rest heq =>
    cases hrest : rest with
    | nil => rw [hrest] at h; cases h
    | cons c t0 =>
      rw [hrest] at h
      have hc : isWs c = true := (Bool.and_eq_true_iff.mp h).1
      have hf : funcTail (lstrip (c :: t0)) = true := (Bool.and_eq_true_iff.mp h).2
      unfold funcTail at hf
      split at hf
      · cases hf
      · rename_i hwne
        split at hf
        case h_2 => cases hf
        case h_1 restp heqp =>
          refine ⟨(c :: t0).takeWhile isWs,
            (lstrip (c :: t0)).takeWhile isWordChar,
            ((lstrip (c :: t0)).dropWhile isWordChar).takeWhile isWs,
            restp, ?_, ?_, ?_, ?_, ?_, ?_, hf⟩
          · rw [heq, hrest]
            congr 1
            conv_lhs => rw [← List.takeWhile_append_dropWhile (p := isWs) (l := c :: t0)]
            congr 1
            conv_lhs =>
              rw [show List.dropWhile isWs (c :: t0) = lstrip (c :: t0) from rfl,
                ← List.takeWhile_append_dropWhile (p := isWordChar) (l := lstrip (c :: t0))]
            congr 1
            conv_lhs =>
              rw [← List.takeWhile_append_dropWhile (p := isWs)
                (l := (lstrip (c :: t0)).dropWhile isWordChar)]
            rw [show List.dropWhile isWs ((lstrip (c :: t0)).dropWhile isWordChar) =
              lstrip ((lstrip (c :: t0)).dropWhile isWordChar) from rfl, heqp]
          · rw [List.takeWhile_cons_of_pos hc]
            simp
          · exact fun a ha => List.mem_takeWhile_imp ha
          · simpa using hwne
          · exact fun a ha => List.mem_takeWhile_imp ha
          · exact fun a ha => List.mem_takeWhile_imp ha

theorem matchClass_intro {l : Line} (s1 u : Line) {b : Char}
    (hl : lstrip l = 'c' :: 'l' :: 'a' :: 's' :: 's' :: (s1 ++ b :: u))
    (hs1 : s1 ≠ []) (hs1w : ∀ a ∈ s1, isWs a = true) (hb : isWordChar b = true) :
    matchClass l = true := by
  obtain ⟨a, s1', rfl⟩ := List.exists_cons_of_ne_nil hs1
  rw [matchClass, hl]
  have hrest : (a :: s1') ++ b :: u = a :: (s1' ++ b :: u) := by simp
  simp only [hrest]
  have ha : isWs a = true := hs1w a (by simp)
  have hlr : lstrip (a :: (s1' ++ b :: u)) = b :: u := by
    rw [← hrest, lstrip, dropWhile_all_append _ hs1w]
    exact List.dropWhile_cons_of_neg (by simp [wordChar_not_ws hb])
  rw [classTail, hlr, List.takeWhile_cons_of_pos hb]
  simp [ha]

theorem matchClass_elim {l : Line} (h : matchClass l = true) :
    ∃ (s1 u : Line) (b : Char),
      lstrip l = 'c' :: 'l' :: 'a' :: 's' :: 's' :: (s1 ++ b :: u) ∧
      s1 ≠ [] ∧ (∀ a ∈ s1, isWs a = true) ∧ isWordChar b = true := by
  unfold matchClass at h
  split at h
  case h_2 => cases h
  case h_1 x rest heq =>
    cases hrest : rest with
    | nil => rw [hrest] at h; cases h
    | cons c t0 =>
      rw [hrest] at h
      have hc : isWs c = true := (Bool.and_eq_true_iff.mp h).1
      have ht : classTail (lstrip (c :: t0)) = true := (Bool.and_eq_true_iff.mp h).2
      rw [classTail] at ht
      cases hls : lstrip (c :: t0) with
      | nil => rw [hls] at ht; cases ht
      | cons b u =>
        rw [hls] at ht
        have hb : isWordChar b = true := by
          by_contra hbw
          rw [List.takeWhile_cons_of_neg hbw] at ht
          cases ht
        refine ⟨(c :: t0).takeWhile isWs, u, b, ?_, ?_, ?_, hb⟩
        · rw [heq, hrest]
          congr 1
          conv_lhs => rw [← List.takeWhile_append_dropWhile (p := isWs) (l := c :: t0)]
          rw [show List.dropWhile isWs (c :: t0) = lstrip (c :: t0) from rfl, hls]
        · rw [List.takeWhile_cons_of_pos hc]
          simp
        · exact fun a ha => List.mem_takeWhile_imp ha

theorem matchFunc_strip {l : Line} (h : matchFunc l = true) :
    matchFunc (strip l) = true := by
  obtain ⟨s1, w, s2, rest, hl, hs1, hs1w, hw, hww, hs2, hr⟩ := matchFunc_elim h
  obtain ⟨mid, tail, rfl⟩ : ∃ mid tail, rest = mid ++ ')' :: tail :=
    List.append_of_mem (List.mem_of_elem_eq_true hr)
  have hx : lstrip l =
      ('d' :: 'e' :: 'f' :: (s1 ++ (w ++ (s2 ++ '(' :: mid)))) ++ ')' :: tail := by
    rw [hl]; simp
  apply matchFunc_intro s1 w s2 (mid ++ ')' :: rstrip tail) _ hs1 hs1w hw hww hs2
  · have : ')' ∈ mid ++ ')' :: rstrip tail := by simp
    exact List.elem_eq_true_of_mem this
  · rw [lstrip_strip, strip, hx,
      rstrip_append_cons _ _ (show isWs ')' = false by decide)]
    simp

theorem matchClass_strip {l : Line} (h : matchClass l = true) :
    matchClass (strip l) = true := by
  obtain ⟨s1, u, b, hl, hs1, hs1w, hb⟩ := matchClass_elim h
  have hx : lstrip l = ('c' :: 'l' :: 'a' :: 's' :: 's' :: s1) ++ b :: u := by
    rw [hl]; simp
  apply matchClass_intro s1 (rstrip u) (b := b) ?_ hs1 hs1w hb
  rw [lstrip_strip, strip, hx, rstrip_append_cons _ _ (wordChar_not_ws hb)]
  simp

theorem matchFunc_lstrip_head {l : Line} (h : matchFunc l = true) :
    ∃ t, lstrip l = 'd' :: t := by
  obtain ⟨s1, w, s2, rest, hl, -⟩ := matchFunc_elim h
  exact ⟨_, hl⟩

theorem matchClass_lstrip_head {l : Line} (h : matchClass l = true) :
    ∃ t, lstrip l = 'c' :: t := by
  obtain ⟨s1, u, b, hl, -⟩ := matchClass_elim h
  exact ⟨_, hl⟩

theorem isBlank_false_of_matchFunc {l : Line} (h : matchFunc l = true) :
    isBlank l = false := by
  obtain ⟨t, ht⟩ := matchFunc_lstrip_head h
  rw [isBlank, strip_of_lstrip_cons ht]
  rfl

theorem isBlank_false_of_matchClass {l : Line} (h : matchClass l = true) :
    isBlank l = false := by
  obtain ⟨t, ht⟩ := matchClass_lstrip_head h
  rw [isBlank, strip_of_lstrip_cons ht]
  rfl

theorem isComment_false_of_matchFunc {l : Line} (h : matchFunc l = true) :
    isComment l = false := by
  obtain ⟨t, ht⟩ := matchFunc_lstrip_head h
  rw [isComment, strip_of_lstrip_cons ht]
  rfl

theorem isComment_false_of_matchClass {l : Line} (h : matchClass l = true) :
    isComment l = false := by
  obtain ⟨t, ht⟩ := matchClass_lstrip_head h
  rw [isComment, strip_of_lstrip_cons ht]
  rfl

theorem matchFunc_false_of_matchClass {l : Line} (h : matchClass l = true) :
    matchFunc l = false := by
  obtain ⟨t, ht⟩ := matchClass_lstrip_head h
  rw [matchFunc, ht]
  rfl

theorem matchFunc_strip_false_of_matchClass {l : Line} (h : matchClass l = true) :
    matchFunc (strip l) = false := by
  obtain ⟨t, ht⟩ := matchClass_lstrip_head h
  rw [matchFunc, lstrip_strip, strip_of_lstrip_cons ht]
  rfl

/-! ## Specifications of the helper loops -/

theorem skipBlankF_spec :
    ∀ (f : Nat) (lines : List Line) (i : Nat), lines.length - i ≤ f →
      i ≤ skipBlankF f lines i ∧
      (i ≤ lines.length → skipBlankF f lines i ≤ lines.length) ∧
      (∀ k, i ≤ k → k < skipBlankF f lines i → isBlank (lines.getD k []) = true) ∧
      (skipBlankF f lines i < lines.length →
        isBlank (lines.getD (skipBlankF f lines i) []) = false) := by
  intro f
  induction f with
  | zero =>
    intro lines i hf
    rw [skipBlankF]
    exact ⟨le_refl i, fun h => h, fun k hk1 hk2 => by omega,
      fun h => absurd h (by omega)⟩
  | succ f ih =>
    intro lines i hf
    rw [skipBlankF]
    by_cases hi : i < lines.length
    · rw [if_pos hi]
      by_cases hb : isBlank (lines.getD i []) = true
      · rw [if_pos hb]
        obtain ⟨h1, h2, h3, h4⟩ := ih lines (i + 1) (by omega)
        refine ⟨by omega, fun _ => h2 (by omega), fun k hk1 hk2 => ?_, h4⟩
        rcases Nat.eq_or_lt_of_le hk1 with rfl | hk
        · exact hb
        · exact h3 k (by omega) hk2
      · rw [if_neg hb]
        exact ⟨le_refl i, fun h => h, fun k hk1 hk2 => by omega,
          fun _ => by simpa using hb⟩
    · rw [if_neg hi]
      exact ⟨le_refl i, fun h => h, fun k hk1 hk2 => by omega, fun h => absurd h hi⟩

theorem skipBlank_spec (lines : List Line) (i : Nat) :
    i ≤ skipBlank lines i ∧
    (i ≤ lines.length → skipBlank lines i ≤ lines.length) ∧
    (∀ k, i ≤ k → k < skipBlank lines i → isBlank (lines.getD k []) = true) ∧
    (skipBlank lines i < lines.length →
      isBlank (lines.getD (skipBlank lines i) []) = false) :=
  skipBlankF_spec lines.length lines i (by omega)

theorem skipBlank_eq_self {lines : List Line} {i : Nat} (hi : i < lines.length)
    (hb : isBlank (lines.getD i []) = false) : skipBlank lines i = i := by
  obtain ⟨m, hm⟩ : ∃ m, lines.length = m + 1 := ⟨lines.length - 1, by omega⟩
  rw [skipBlank, hm, skipBlankF, if_pos (by omega), hb]
  rfl

theorem collectBodyF_end {f : Nat} {lines : List Line} {idx indent : Nat}
    (hi : ¬ idx < lines.length) :
    collectBodyF (f + 1) lines idx indent = ([], idx) := by
  simp [collectBodyF, hi]

theorem collectBodyF_blank {f : Nat} {lines : List Line} {idx indent : Nat}
    (hi : idx < lines.length) (hb : isBlank (lines.getD idx []) = true) :
    collectBodyF (f + 1) lines idx indent =
      (lines.getD idx [] :: (collectBodyF f lines (idx + 1) indent).1,
        (collectBodyF f lines (idx + 1) indent).2) := by
  have hb2 : isBlank lines[idx] = true := by
    rwa [List.getD_eq_getElem lines [] hi] at hb
  simp [collectBodyF, hi, hb2, List.getD_eq_getElem lines [] hi]

theorem collectBodyF_stop {f : Nat} {lines : List Line} {idx indent : Nat}
    (hi : idx < lines.length) (hb : isBlank (lines.getD idx []) = false)
    (hind : indentOf (lines.getD idx []) ≤ indent) :
    collectBodyF (f + 1) lines idx indent = ([], idx) := by
  have hb2 : isBlank lines[idx] = false := by
    rwa [List.getD_eq_getElem lines [] hi] at hb
  have hind2 : indentOf lines[idx] ≤ indent := by
    rwa [List.getD_eq_getElem lines [] hi] at hind
  simp [collectBodyF, hi, hb2, hind2]

theorem collectBodyF_deep {f : Nat} {lines : List Line} {idx indent : Nat}
    (hi : idx < lines.length) (hb : isBlank (lines.getD idx []) = false)
    (hind : ¬ indentOf (lines.getD idx []) ≤ indent) :
    collectBodyF (f + 1) lines idx indent =
      (lines.getD idx [] :: (collectBodyF f lines (idx + 1) indent).1,
        (collectBodyF f lines (idx + 1) indent).2) := by
  have hb2 : isBlank lines[idx] = false := by
    rwa [List.getD_eq_getElem lines [] hi] at hb
  have hind2 : ¬ indentOf lines[idx] ≤ indent := by
    rwa [List.getD_eq_getElem lines [] hi] at hind
  simp [collectBodyF, hi, hb2, hind2, List.getD_eq_getElem lines [] hi]

theorem collectBodyF_spec :
    ∀ (f : Nat) (lines : List Line) (idx indent : Nat), lines.length - idx ≤ f →
      idx ≤ (collectBodyF f lines idx indent).2 ∧
      (collectBodyF f lines idx indent).1 =
        (lines.drop idx).take ((collectBodyF f lines idx indent).2 - idx) ∧
      (∀ l ∈ (collectBodyF f lines idx indent).1,
        isBlank l = true ∨ indent < indentOf l) ∧
      (collectBodyF f lines idx indent).1.length ≤ lines.length - idx := by
  intro f
  induction f with
  | zero =>
    intro lines idx indent hf
    rw [collectBodyF]
    exact ⟨le_refl idx, by simp, by simp, by simp⟩
  | succ f ih =>
    intro lines idx indent hf
    by_cases hi : idx < lines.length
    · have hdrop : lines.drop idx = lines.getD idx [] :: lines.drop (idx + 1) := by
        rw [List.getD_eq_getElem lines [] hi]
        exact List.drop_eq_getElem_cons hi
      obtain ⟨h1, h2, h3, h4⟩ := ih lines (idx + 1) indent (by omega)
      by_cases hb : isBlank (lines.getD idx []) = true
      · rw [collectBodyF_blank hi hb]
        refine ⟨by dsimp only; omega, ?_, ?_, ?_⟩
        · dsimp only
          rw [hdrop, show (collectBodyF f lines (idx + 1) indent).2 - idx =
            ((collectBodyF f lines (idx + 1) indent).2 - (idx + 1)) + 1 by omega,
            List.take_succ_cons, h2]
        · dsimp only
          intro l hl
          rcases List.mem_cons.mp hl with rfl | hl
          · exact Or.inl hb
          · exact h3 l hl
        · dsimp only
          rw [List.length_cons]
          omega
      · rw [Bool.not_eq_true] at hb
        by_cases hind : indentOf (lines.getD idx []) ≤ indent
        · rw [collectBodyF_stop hi hb hind]
          exact ⟨le_refl idx, by simp, by simp, by simp⟩
        · rw [collectBodyF_deep hi hb hind]
          refine ⟨by dsimp only; omega, ?_, ?_, ?_⟩
          · dsimp only
            rw [hdrop, show (collectBodyF f lines (idx + 1) indent).2 - idx =
              ((collectBodyF f lines (idx + 1) indent).2 - (idx + 1)) + 1 by omega,
              List.take_succ_cons, h2]
          · dsimp only
            intro l hl
            rcases List.mem_cons.mp hl with rfl | hl
            · exact Or.inr (by omega)
            · exact h3 l hl
          · dsimp only
            rw [List.length_cons]
            omega
    · rw [collectBodyF_end hi]
      exact ⟨le_refl idx, by simp, by simp, by simp⟩

theorem collectBody_spec (lines : List Line) (idx indent : Nat) :
    idx ≤ (collectBody lines idx indent).2 ∧
    (collectBody lines idx indent).1 =
      (lines.drop idx).take ((collectBody lines idx indent).2 - idx) ∧
    (∀ l ∈ (collectBody lines idx indent).1,
      isBlank l = true ∨ indent < indentOf l) ∧
    (collectBody lines idx indent).1.length ≤ lines.length - idx :=
  collectBodyF_spec lines.length lines idx indent (by omega)

theorem collectBody_append_drop (lines : List Line) (idx indent : Nat) :
    lines.drop idx =
      (collectBody lines idx indent).1 ++ lines.drop (collectBody lines idx indent).2 := by
  obtain ⟨h1, h2, -, -⟩ := collectBody_spec lines idx indent
  rw [h2]
  have hdd : lines.drop (collectBody lines idx indent).2 =
      (lines.drop idx).drop ((collectBody lines idx indent).2 - idx) := by
    rw [List.drop_drop]
    congr 1
    omega
  rw [hdd, List.take_append_drop]

theorem collectBody_stop {lines : List Line} {idx indent : Nat}
    (hi : idx < lines.length) (hb : isBlank (lines.getD idx []) = false)
    (hind : indentOf (lines.getD idx []) ≤ indent) :
    collectBody lines idx indent = ([], idx) := by
  obtain ⟨m, hm⟩ : ∃ m, lines.length = m + 1 := ⟨lines.length - 1, by omega⟩
  rw [collectBody, hm, collectBodyF_stop hi hb hind]

theorem collectBody_sublist (lines : List Line) (idx indent : Nat) :
    (collectBody lines idx indent).1.Sublist lines := by
  obtain ⟨-, h2, -, -⟩ := collectBody_spec lines idx indent
  rw [h2]
  exact ((lines.drop idx).take_sublist _).trans (lines.drop_sublist idx)

/-! ## The docstring extractor -/

theorem scanCloseF_end {f : Nat} {lines : List Line} {idx : Nat} {q : Line}
    {acc : List Line} (hi : ¬ idx < lines.length) :
    scanCloseF (f + 1) lines idx q acc = (acc, idx + 1) := by
  simp [scanCloseF, hi]

theorem scanCloseF_hit {f : Nat} {lines : List Line} {idx : Nat} {q : Line}
    {acc : List Line} (hi : idx < lines.length)
    (hq : q.isSuffixOf (strip (lines.getD idx [])) = true) :
    scanCloseF (f + 1) lines idx q acc =
      (acc ++ [strip (lines.getD idx [])], idx + 1) := by
  have hg : lines.getD idx [] = lines[idx] := List.getD_eq_getElem lines [] hi
  have hq2 : q.isSuffixOf (strip lines[idx]) = true := by rwa [hg] at hq
  simp [scanCloseF, hi, hq2, hg]

theorem scanCloseF_miss {f : Nat} {lines : List Line} {idx : Nat} {q : Line}
    {acc : List Line} (hi : idx < lines.length)
    (hq : q.isSuffixOf (strip (lines.getD idx [])) = false) :
    scanCloseF (f + 1) lines idx q acc =
      scanCloseF f lines (idx + 1) q (acc ++ [strip (lines.getD idx [])]) := by
  have hg : lines.getD idx [] = lines[idx] := List.getD_eq_getElem lines [] hi
  have hq2 : q.isSuffixOf (strip lines[idx]) = false := by rwa [hg] at hq
  simp [scanCloseF, hi, hq2, hg]

theorem scanCloseF_found :
    ∀ (f : Nat) (lines : List Line) (idx : Nat) (q : Line) (acc : List Line) (j : Nat),
      lines.length - idx ≤ f → idx ≤ j → j < lines.length →
      (∀ k, idx ≤ k → k < j → q.isSuffixOf (strip (lines.getD k [])) = false) →
      q.isSuffixOf (strip (lines.getD j [])) = true →
      scanCloseF f lines idx q acc =
        (acc ++ ((lines.drop idx).take (j + 1 - idx)).map (fun l => strip l), j + 1) := by
  intro f
  induction f with
  | zero =>
    intro lines idx q acc j hf h1 h2 _ _
    omega
  | succ f ih =>
    intro lines idx q acc j hf h1 h2 hmiss hhit
    have hi : idx < lines.length := by omega
    have hdrop : lines.drop idx = lines.getD idx [] :: lines.drop (idx + 1) := by
      rw [List.getD_eq_getElem lines [] hi]
      exact List.drop_eq_getElem_cons hi
    rcases Nat.eq_or_lt_of_le h1 with rfl | hlt
    · rw [scanCloseF_hit hi hhit, hdrop, show idx + 1 - idx = 1 by omega]
      simp
    · rw [scanCloseF_miss hi (hmiss idx (le_refl idx) hlt),
        ih lines (idx + 1) q _ j (by omega) (by omega) h2
          (fun k hk1 hk2 => hmiss k (by omega) hk2) hhit, hdrop,
        show j + 1 - idx = (j + 1 - (idx + 1)) + 1 by omega]
      simp [List.take_succ_cons]

theorem scanCloseF_exhaust :
    ∀ (f : Nat) (lines : List Line) (idx : Nat) (q : Line) (acc : List Line),
      lines.length - idx ≤ f → idx ≤ lines.length →
      (∀ k, idx ≤ k → k < lines.length →
        q.isSuffixOf (strip (lines.getD k [])) = false) →
      scanCloseF f lines idx q acc =
        (acc ++ (lines.drop idx).map (fun l => strip l), lines.length + 1) := by
  intro f
  induction f with
  | zero =>
    intro lines idx q acc hf hle hmiss
    have hidx : idx = lines.length := by omega
    subst hidx
    rw [scanCloseF]
    simp
  | succ f ih =>
    intro lines idx q acc hf hle hmiss
    by_cases hi : idx < lines.length
    · have hdrop : lines.drop idx = lines.getD idx [] :: lines.drop (idx + 1) := by
        rw [List.getD_eq_getElem lines [] hi]
        exact List.drop_eq_getElem_cons hi
      rw [scanCloseF_miss hi (hmiss idx (le_refl idx) hi),
        ih lines (idx + 1) q _ (by omega) (by omega)
          (fun k hk1 hk2 => hmiss k (by omega) hk2), hdrop]
      simp
    · have hidx : idx = lines.length := by omega
      subst hidx
      rw [scanCloseF_end hi]
      simp

theorem scanCloseF_acc :
    ∀ (f : Nat) (lines : List Line) (idx : Nat) (q : Line) (acc : List Line),
      ∃ t, (scanCloseF f lines idx q acc).1 = acc ++ t := by
  intro f
  induction f with
  | zero => intro lines idx q acc; exact ⟨[], by simp [scanCloseF]⟩
  | succ f ih =>
    intro lines idx q acc
    by_cases hi : idx < lines.length
    · by_cases hq : q.isSuffixOf (strip (lines.getD idx [])) = true
      · exact ⟨[strip (lines.getD idx [])], by rw [scanCloseF_hit hi hq]⟩
      · rw [Bool.not_eq_true] at hq
        obtain ⟨t, ht⟩ := ih lines (idx + 1) q (acc ++ [strip (lines.getD idx [])])
        exact ⟨[strip (lines.getD idx [])] ++ t, by
          rw [scanCloseF_miss hi hq, ht, List.append_assoc]⟩
    · exact ⟨[], by rw [scanCloseF_end hi]; simp⟩

theorem joinNL_cons_ne_nil (x : Line) (xs : List Line) (hx : x ≠ []) :
    joinNL (x :: xs) ≠ [] := by
  rw [joinNL, List.intercalate]
  cases xs with
  | nil => simpa using hx
  | cons y ys =>
    rw [List.intersperse_cons_cons]
    simp [hx]

theorem extract_oob {lines : List Line} {n : Nat} (hn : ¬ n < lines.length) :
    extract_docstring lines n = (none, n) := by
  rw [extract_docstring, if_neg hn]

theorem extract_singleD {lines : List Line} {n : Nat} (hn : n < lines.length)
    (h1 : singleMatch tripleD (strip (lines.getD n [])) = true) :
    extract_docstring lines n =
      (some (tripleD ++ midOf (strip (lines.getD n [])) ++ tripleD), n + 1) := by
  rw [extract_docstring, if_pos hn]
  dsimp only
  rw [if_pos h1]

theorem extract_singleS {lines : List Line} {n : Nat} (hn : n < lines.length)
    (h1 : singleMatch tripleD (strip (lines.getD n [])) = false)
    (h2 : singleMatch tripleS (strip (lines.getD n [])) = true) :
    extract_docstring lines n =
      (some (tripleD ++ midOf (strip (lines.getD n [])) ++ tripleD), n + 1) := by
  rw [extract_docstring, if_pos hn]
  dsimp only
  rw [if_neg (by rw [h1]; simp), if_pos h2]

theorem extract_multiD {lines : List Line} {n : Nat} (hn : n < lines.length)
    (h1 : singleMatch tripleD (strip (lines.getD n [])) = false)
    (h3 : tripleD.isPrefixOf (strip (lines.getD n [])) = true) :
    extract_docstring lines n =
      (some (joinNL (scanClose lines (n + 1) tripleD [strip (lines.getD n [])]).1),
        (scanClose lines (n + 1) tripleD [strip (lines.getD n [])]).2) := by
  have h2 : singleMatch tripleS (strip (lines.getD n [])) = false := by
    rw [singleMatch]
    cases hp : List.isPrefixOf tripleS (strip (lines.getD n []))
    · rfl
    · obtain ⟨t, ht⟩ := List.isPrefixOf_iff_prefix.mp hp
      obtain ⟨u, hu⟩ := List.isPrefixOf_iff_prefix.mp h3
      rw [← ht] at hu
      cases hu
  rw [extract_docstring, if_pos hn]
  dsimp only
  rw [if_neg (by rw [h1]; simp), if_neg (by rw [h2]; simp), if_pos h3]

theorem extract_multiS {lines : List Line} {n : Nat} (hn : n < lines.length)
    (h2 : singleMatch tripleS (strip (lines.getD n [])) = false)
    (h3 : tripleD.isPrefixOf (strip (lines.getD n [])) = false)
    (h4 : tripleS.isPrefixOf (strip (lines.getD n [])) = true) :
    extract_docstring lines n =
      (some (joinNL (scanClose lines (n + 1) tripleS [strip (lines.getD n [])]).1),
        (scanClose lines (n + 1) tripleS [strip (lines.getD n [])]).2) := by
  have h1 : singleMatch tripleD (strip (lines.getD n [])) = false := by
    rw [singleMatch, h3]
    rfl
  rw [extract_docstring, if_pos hn]
  dsimp only
  rw [if_neg (by rw [h1]; simp), if_neg (by rw [h2]; simp), if_neg (by rw [h3]; simp), if_pos h4]

theorem extract_none {lines : List Line} {n : Nat} (hn : n < lines.length)
    (h3 : tripleD.isPrefixOf (strip (lines.getD n [])) = false)
    (h4 : tripleS.isPrefixOf (strip (lines.getD n [])) = false) :
    extract_docstring lines n = (none, n) := by
  have h1 : singleMatch tripleD (strip (lines.getD n [])) = false := by
    rw [singleMatch, h3]; rfl
  have h2 : singleMatch tripleS (strip (lines.getD n [])) = false := by
    rw [singleMatch, h4]; rfl
  rw [extract_docstring, if_pos hn]
  dsimp only
  rw [if_neg (by rw [h1]; simp), if_neg (by rw [h2]; simp), if_neg (by rw [h3]; simp),
    if_neg (by rw [h4]; simp)]

theorem extract_fst_isSome_iff {lines : List Line} {n : Nat} (hn : n < lines.length) :
    (extract_docstring lines n).1.isSome = true ↔
      (tripleD.isPrefixOf (strip (lines.getD n [])) = true ∨
        tripleS.isPrefixOf (strip (lines.getD n [])) = true) := by
  constructor
  · intro h
    by_cases h3 : tripleD.isPrefixOf (strip (lines.getD n [])) = true
    · exact Or.inl h3
    · by_cases h4 : tripleS.isPrefixOf (strip (lines.getD n [])) = true
      · exact Or.inr h4
      · rw [extract_none hn (eq_false_of_not_true h3) (eq_false_of_not_true h4)] at h
        cases h
  · intro h
    by_cases h1 : singleMatch tripleD (strip (lines.getD n [])) = true
    · rw [extract_singleD hn h1]; rfl
    · rw [Bool.not_eq_true] at h1
      by_cases h2 : singleMatch tripleS (strip (lines.getD n [])) = true
      · rw [extract_singleS hn h1 h2]; rfl
      · rw [Bool.not_eq_true] at h2
        by_cases h3 : tripleD.isPrefixOf (strip (lines.getD n [])) = true
        · rw [extract_multiD hn h1 h3]; rfl
        · rcases h with h | h4
          · exact absurd h h3
          · rw [extract_multiS hn h2 (eq_false_of_not_true h3) h4]; rfl

theorem scanCloseF_snd_ge :
    ∀ (f : Nat) (lines : List Line) (idx : Nat) (q : Line) (acc : List Line),
      idx + 1 ≤ (scanCloseF f lines idx q acc).2 := by
  intro f
  induction f with
  | zero => intro lines idx q acc; rw [scanCloseF]
  | succ f ih =>
    intro lines idx q acc
    by_cases hi : idx < lines.length
    · by_cases hq : q.isSuffixOf (strip (lines.getD idx [])) = true
      · rw [scanCloseF_hit hi hq]
      · rw [Bool.not_eq_true] at hq
        rw [scanCloseF_miss hi hq]
        have := ih lines (idx + 1) q (acc ++ [strip (lines.getD idx [])])
        omega
    · rw [scanCloseF_end hi]

theorem extract_snd_ge {lines : List Line} {n : Nat}
    (h : (extract_docstring lines n).1.isSome = true) :
    n + 1 ≤ (extract_docstring lines n).2 := by
  by_cases hn : n < lines.length
  · by_cases h1 : singleMatch tripleD (strip (lines.getD n [])) = true
    · rw [extract_singleD hn h1]
    · rw [Bool.not_eq_true] at h1
      by_cases h2 : singleMatch tripleS (strip (lines.getD n [])) = true
      · rw [extract_singleS hn h1 h2]
      · rw [Bool.not_eq_true] at h2
        by_cases h3 : tripleD.isPrefixOf (strip (lines.getD n [])) = true
        · rw [extract_multiD hn h1 h3]
          have := scanCloseF_snd_ge lines.length lines (n + 1) tripleD
            [strip (lines.getD n [])]
          dsimp only
          rw [scanClose] at *
          omega
        · by_cases h4 : tripleS.isPrefixOf (strip (lines.getD n [])) = true
          · rw [extract_multiS hn h2 (eq_false_of_not_true h3) h4]
            have := scanCloseF_snd_ge lines.length lines (n + 1) tripleS
              [strip (lines.getD n [])]
            dsimp only
            rw [scanClose] at *
            omega
          · rw [extract_none hn (eq_false_of_not_true h3) (eq_false_of_not_true h4)] at h
            cases h
  · rw [extract_oob hn] at h
    cases h

theorem extract_truthy (lines : List Line) (n : Nat) :
    truthy (extract_docstring lines n).1 = (extract_docstring lines n).1.isSome := by
  by_cases hn : n < lines.length
  · by_cases h1 : singleMatch tripleD (strip (lines.getD n [])) = true
    · rw [extract_singleD hn h1]; rfl
    · rw [Bool.not_eq_true] at h1
      by_cases h2 : singleMatch tripleS (strip (lines.getD n [])) = true
      · rw [extract_singleS hn h1 h2]; rfl
      · rw [Bool.not_eq_true] at h2
        by_cases h3 : tripleD.isPrefixOf (strip (lines.getD n [])) = true
        · rw [extract_multiD hn h1 h3]
          dsimp only
          obtain ⟨t, ht⟩ := scanCloseF_acc lines.length lines (n + 1) tripleD
            [strip (lines.getD n [])]
          obtain ⟨u, hu⟩ := List.isPrefixOf_iff_prefix.mp h3
          rw [scanClose, ht, List.singleton_append]
          have hne : joinNL (strip (lines.getD n []) :: t) ≠ [] := by
            refine joinNL_cons_ne_nil _ _ ?_
            intro hnil
            rw [hnil] at hu
            simp [tripleD] at hu
          rw [truthy, Option.getD_some]
          simpa [List.isEmpty_iff] using hne
        · by_cases h4 : tripleS.isPrefixOf (strip (lines.getD n [])) = true
          · rw [extract_multiS hn h2 (eq_false_of_not_true h3) h4]
            dsimp only
            obtain ⟨t, ht⟩ := scanCloseF_acc lines.length lines (n + 1) tripleS
              [strip (lines.getD n [])]
            obtain ⟨u, hu⟩ := List.isPrefixOf_iff_prefix.mp h4
            rw [scanClose, ht, List.singleton_append]
            have hne : joinNL (strip (lines.getD n []) :: t) ≠ [] := by
              refine joinNL_cons_ne_nil _ _ ?_
              intro hnil
              rw [hnil] at hu
              simp [tripleS] at hu
            rw [truthy, Option.getD_some]
            simpa [List.isEmpty_iff] using hne
          · rw [extract_none hn (eq_false_of_not_true h3) (eq_false_of_not_true h4)]
            rfl
  · rw [extract_oob hn]
    rfl

/-! ## Docstring attachment -/

theorem attachDoc_oob {lines : List Line} {i indent : Nat}
    (h : ¬ skipBlank lines (i + 1) < lines.length) :
    attachDoc lines i indent = (none, skipBlank lines (i + 1)) := by
  rw [attachDoc]
  dsimp only
  rw [if_neg h]

theorem attachDoc_guard_true {lines : List Line} {i indent : Nat}
    (h : skipBlank lines (i + 1) < lines.length)
    (hg : (decide (indent < indentOf (lines.getD (skipBlank lines (i + 1)) [])) &&
      containsTriple (lines.getD (skipBlank lines (i + 1)) [])) = true) :
    attachDoc lines i indent = extract_docstring lines (skipBlank lines (i + 1)) := by
  rw [attachDoc]
  dsimp only
  rw [if_pos h, if_pos hg]

theorem attachDoc_guard_false {lines : List Line} {i indent : Nat}
    (h : skipBlank lines (i + 1) < lines.length)
    (hg : (decide (indent < indentOf (lines.getD (skipBlank lines (i + 1)) [])) &&
      containsTriple (lines.getD (skipBlank lines (i + 1)) [])) = false) :
    attachDoc lines i indent = (none, skipBlank lines (i + 1)) := by
  rw [attachDoc]
  dsimp only
  rw [if_pos h, if_neg (by rw [hg]; simp)]

theorem attachDoc_truthy (lines : List Line) (i indent : Nat) :
    truthy (attachDoc lines i indent).1 = (attachDoc lines i indent).1.isSome := by
  by_cases h : skipBlank lines (i + 1) < lines.length
  · by_cases hg : (decide (indent < indentOf (lines.getD (skipBlank lines (i + 1)) [])) &&
        containsTriple (lines.getD (skipBlank lines (i + 1)) [])) = true
    · rw [attachDoc_guard_true h hg]
      exact extract_truthy lines (skipBlank lines (i + 1))
    · rw [attachDoc_guard_false h (eq_false_of_not_true hg)]
      rfl
  · rw [attachDoc_oob h]
    rfl

theorem attachDoc_fst_isSome_iff (lines : List Line) (i indent : Nat) :
    (attachDoc lines i indent).1.isSome = true ↔
      (skipBlank lines (i + 1) < lines.length ∧
        indent < indentOf (lines.getD (skipBlank lines (i + 1)) []) ∧
        (tripleD.isPrefixOf (strip (lines.getD (skipBlank lines (i + 1)) [])) = true ∨
          tripleS.isPrefixOf (strip (lines.getD (skipBlank lines (i + 1)) [])) = true)) := by
  by_cases h : skipBlank lines (i + 1) < lines.length
  · by_cases hind : indent < indentOf (lines.getD (skipBlank lines (i + 1)) [])
    · by_cases hop : (tripleD.isPrefixOf (strip (lines.getD (skipBlank lines (i + 1)) [])) = true ∨
        tripleS.isPrefixOf (strip (lines.getD (skipBlank lines (i + 1)) [])) = true)
      · have hct : containsTriple (lines.getD (skipBlank lines (i + 1)) []) = true := by
          rcases hop with hop | hop
          · exact containsTriple_of_prefixD (List.isPrefixOf_iff_prefix.mp hop)
          · exact containsTriple_of_prefixS (List.isPrefixOf_iff_prefix.mp hop)
        rw [attachDoc_guard_true h
            (by rw [hct, Bool.and_true]; exact decide_eq_true hind),
          extract_fst_isSome_iff h]
        exact ⟨fun hx => ⟨h, hind, hx⟩, fun hx => hx.2.2⟩
      · constructor
        · intro hx
          by_cases hct : containsTriple (lines.getD (skipBlank lines (i + 1)) []) = true
          · rw [attachDoc_guard_true h
                (by rw [hct, Bool.and_true]; exact decide_eq_true hind),
              extract_fst_isSome_iff h] at hx
            exact absurd hx hop
          · rw [attachDoc_guard_false h
              (by rw [eq_false_of_not_true hct, Bool.and_false])] at hx
            cases hx
        · intro hx
          exact absurd hx.2.2 hop
    · rw [attachDoc_guard_false h
        (by rw [decide_eq_false hind, Bool.false_and])]
      constructor
      · intro hx; cases hx
      · intro hx; exact absurd hx.2.1 hind
  · rw [attachDoc_oob h]
    constructor
    · intro hx; cases hx
    · intro hx; exact absurd hx.1 h

/-- `j` is the first non-blank position strictly after `i`. -/
def FirstNonBlankAfter (lines : List Line) (i j : Nat) : Prop :=
  i < j ∧ j < lines.length ∧ isBlank (lines.getD j []) = false ∧
    ∀ k, i < k → k < j → isBlank (lines.getD k []) = true

theorem firstNonBlankAfter_iff (lines : List Line) (i j : Nat) :
    FirstNonBlankAfter lines i j ↔
      (skipBlank lines (i + 1) < lines.length ∧ j = skipBlank lines (i + 1)) := by
  obtain ⟨h1, h2, h3, h4⟩ := skipBlank_spec lines (i + 1)
  constructor
  · rintro ⟨hj1, hj2, hj3, hj4⟩
    have hjn : j = skipBlank lines (i + 1) := by
      rcases Nat.lt_trichotomy j (skipBlank lines (i + 1)) with hlt | heq | hgt
      · exact absurd (h3 j (by omega) hlt) (by rw [hj3]; simp)
      · exact heq
      · have hblank := hj4 (skipBlank lines (i + 1)) (by omega) hgt
        have hnb := h4 (by omega)
        exact absurd hblank (by rw [hnb]; simp)
    exact ⟨by omega, hjn⟩
  · rintro ⟨hlt, rfl⟩
    exact ⟨by omega, hlt, h4 hlt, fun k hk1 hk2 => h3 k (by omega) hk2⟩

/-! ## Unfolding the main loop -/

theorem parseFromF_end {f : Nat} {lines : List Line} {p : Int} {i : Nat}
    (hi : ¬ i < lines.length) : parseFromF (f + 1) lines p i = [] := by
  rw [parseFromF, if_neg hi]

theorem parseFromF_skip {f : Nat} {lines : List Line} {p : Int} {i : Nat}
    (hi : i < lines.length)
    (hs : (isBlank (lines.getD i []) || isComment (lines.getD i [])) = true) :
    parseFromF (f + 1) lines p i = parseFromF f lines p (i + 1) := by
  rw [parseFromF, if_pos hi]
  dsimp only
  rw [if_pos hs]

theorem parseFromF_other {f : Nat} {lines : List Line} {p : Int} {i : Nat}
    (hi : i < lines.length)
    (hs : (isBlank (lines.getD i []) || isComment (lines.getD i [])) = false)
    (hd : (matchFunc (lines.getD i []) || matchClass (lines.getD i [])) = false) :
    parseFromF (f + 1) lines p i = parseFromF f lines p (i + 1) := by
  rw [parseFromF, if_pos hi]
  dsimp only
  rw [if_neg (by rw [hs]; simp), if_neg (by rw [hd]; simp)]

theorem parseFromF_break {f : Nat} {lines : List Line} {p : Int} {i : Nat}
    (hi : i < lines.length)
    (hs : (isBlank (lines.getD i []) || isComment (lines.getD i [])) = false)
    (hd : (matchFunc (lines.getD i []) || matchClass (lines.getD i [])) = true)
    (hbr : 0 ≤ p ∧ (indentOf (lines.getD i []) : Int) ≤ p) :
    parseFromF (f + 1) lines p i = [] := by
  rw [parseFromF, if_pos hi]
  dsimp only
  rw [if_neg (by rw [hs]; simp), if_pos hd, if_pos hbr]

theorem parseFromF_node {f : Nat} {lines : List Line} {p : Int} {i : Nat}
    (hi : i < lines.length)
    (hs : (isBlank (lines.getD i []) || isComment (lines.getD i [])) = false)
    (hd : (matchFunc (lines.getD i []) || matchClass (lines.getD i [])) = true)
    (hbr : ¬ (0 ≤ p ∧ (indentOf (lines.getD i []) : Int) ≤ p))
    {dn : Option Line × Nat} (hdn : dn = attachDoc lines i (indentOf (lines.getD i [])))
    {start : Nat} (hst : start = if truthy dn.1 then dn.2 else i + 1)
    {bc : List Line × Nat} (hbc : bc = collectBody lines start (indentOf (lines.getD i []))) :
    parseFromF (f + 1) lines p i =
      DocumentNode.mk
        (Token.mk (strip (lines.getD i []))
          (if matchFunc (lines.getD i []) then TokenType.FUNC_SIGNATURE
            else TokenType.CLASS_NAME))
        dn.1
        (if bc.1.any (fun l => !isBlank l) then
          parseFromF f bc.1 (indentOf (lines.getD i []) : Int) 0
          else [])
        (indentOf (lines.getD i [])) ::
      parseFromF f lines p bc.2 := by
  subst hdn
  subst hst
  subst hbc
  rw [parseFromF, if_pos hi]
  dsimp only
  rw [if_neg (by rw [hs]; simp), if_pos hd, if_neg hbr]

/-! ## Derived notions used by the verification -/

/-- Identifier texts of a forest, in depth-first preorder. -/
def identsF : List DocumentNode → List Line
  | [] => []
  | DocumentNode.mk t _ ch _ :: cs => t.content :: (identsF ch ++ identsF cs)

/-- Lines accepted by the Line Classifier. -/
def isDefLine (l : Line) : Bool := matchFunc l || matchClass l

/-- The stripped definition lines of an input, in order. -/
def defStrips (lines : List Line) : List Line :=
  (lines.filter isDefLine).map (fun l => strip l)

/-- Every node of a list of trees is strictly deeper than the given bound and
well nested below it. -/
def wnList : Nat → List DocumentNode → Bool
  | _, [] => true
  | ind, DocumentNode.mk _ _ ch ci :: cs =>
    (decide (ind < ci) && wnList ci ch) && wnList ind cs

/-- For every node of the tree, every child records an `indent_level` strictly
greater than its parent's. -/
def wellNested : DocumentNode → Bool
  | DocumentNode.mk _ _ ch ci => wnList ci ch

/-- `P` holds at every node of every tree in the list. -/
def EveryNodeL (P : DocumentNode → Prop) : List DocumentNode → Prop
  | [] => True
  | DocumentNode.mk t d ch ind :: cs =>
    (P (DocumentNode.mk t d ch ind) ∧ EveryNodeL P ch) ∧ EveryNodeL P cs

/-- `P` holds at the node itself and at every descendant. -/
def EveryNode (P : DocumentNode → Prop) (n : DocumentNode) : Prop :=
  P n ∧ EveryNodeL P n.children

/-- The Line Classifier (parse lines 88-101): the function pattern is tried
first, then the class pattern; on a match it reports the matched indentation
width (the length of the `^(\s*)` group) and the type tag. -/
def classifyLine (l : Line) : Option (Nat × TokenType) :=
  if matchFunc l then some (indentOf l, TokenType.FUNC_SIGNATURE)
  else if matchClass l then some (indentOf l, TokenType.CLASS_NAME)
  else none

/-- The display transform of `_print_nodes` (src/parser.py lines 168-169):
`if signature.endswith("):"): signature = signature[:-1] + ":"`. -/
def displaySignature (sig : Line) : Line :=
  if [')', ':'].isSuffixOf sig then sig.dropLast ++ [':'] else sig

/-- Option-valued variant of the fueled main loop, `none` on fuel exhaustion;
it mirrors `parseFromF` step by step and witnesses that the fuel bound
`lines.length + 1` completes the computation. -/
def parseFromO : Nat → List Line → Int → Nat → Option (List DocumentNode)
  | 0, _, _, _ => none
  | f + 1, lines, parent_indent, i =>
    if i < lines.length then
      let line := lines.getD i []
      if isBlank line || isComment line then parseFromO f lines parent_indent (i + 1)
      else if matchFunc line || matchClass line then
        let indent := indentOf line
        if 0 ≤ parent_indent ∧ (indent : Int) ≤ parent_indent then some []
        else
          let tok := if matchFunc line then TokenType.FUNC_SIGNATURE else TokenType.CLASS_NAME
          let dn := attachDoc lines i indent
          let start := if truthy dn.1 then dn.2 else i + 1
          let bc := collectBody lines start indent
          match (if bc.1.any (fun l => !isBlank l) then parseFromO f bc.1 (indent : Int) 0
            else some []) with
          | none => none
          | some children =>
            match parseFromO f lines parent_indent bc.2 with
            | none => none
            | some rest =>
              some (DocumentNode.mk (Token.mk (strip line) tok) dn.1 children indent :: rest)
      else parseFromO f lines parent_indent (i + 1)
    else some []

/-! ## Tree predicates -/

theorem EveryNodeL_iff {P : DocumentNode → Prop} :
    ∀ {cs : List DocumentNode}, EveryNodeL P cs ↔ ∀ c ∈ cs, EveryNode P c := by
  intro cs
  induction cs with
  | nil => simp [EveryNodeL]
  | cons c cs ih =>
    cases c with
    | mk t d ch ind =>
      rw [EveryNodeL]
      constructor
      · rintro ⟨⟨hp, hch⟩, hcs⟩ c hc
        rcases List.mem_cons.mp hc with rfl | hc
        · exact ⟨hp, hch⟩
        · exact ih.mp hcs c hc
      · intro h
        refine ⟨?_, ih.mpr fun c hc => h c (by simp [hc])⟩
        have hh := h (DocumentNode.mk t d ch ind) (by simp)
        exact ⟨hh.1, hh.2⟩

theorem wnList_iff :
    ∀ {ind : Nat} {cs : List DocumentNode}, wnList ind cs = true ↔
      ∀ c ∈ cs, ind < c.indent_level ∧ wellNested c = true := by
  intro ind cs
  induction cs with
  | nil => simp [wnList]
  | cons c cs ih =>
    cases c with
    | mk t d ch ci =>
      rw [wnList]
      simp only [Bool.and_eq_true, decide_eq_true_eq]
      constructor
      · rintro ⟨⟨h1, h2⟩, h3⟩ c hc
        rcases List.mem_cons.mp hc with rfl | hc
        · exact ⟨h1, h2⟩
        · exact ih.mp h3 c hc
      · intro h
        have hh := h (DocumentNode.mk t d ch ci) (by simp)
        exact ⟨⟨hh.1, hh.2⟩, ih.mpr fun c hc => h c (by simp [hc])⟩

theorem EveryNode_mono_sized {P Q : DocumentNode → Prop} (hPQ : ∀ m, P m → Q m) :
    ∀ (k : Nat) (n : DocumentNode), sizeOf n ≤ k → EveryNode P n → EveryNode Q n := by
  intro k
  induction k with
  | zero =>
    intro n hs h
    cases n with
    | mk t d ch ind => simp at hs
  | succ k ih =>
    intro n hs h
    cases n with
    | mk t d ch ind =>
      refine ⟨hPQ _ h.1, ?_⟩
      have hch := EveryNodeL_iff.mp h.2
      refine EveryNodeL_iff.mpr fun c hc => ?_
      have hsz : sizeOf c < sizeOf (DocumentNode.mk t d ch ind) := by
        have hc2 : c ∈ ch := hc
        have h1 := List.sizeOf_lt_of_mem hc2
        have h2 : sizeOf (DocumentNode.mk t d ch ind) = 1 + sizeOf t + sizeOf d + sizeOf ch + sizeOf ind := by
          simp
        omega
      exact ih c (by omega) (hch c hc)

theorem EveryNode_mono {P Q : DocumentNode → Prop} (hPQ : ∀ m, P m → Q m)
    (n : DocumentNode) (h : EveryNode P n) : EveryNode Q n :=
  EveryNode_mono_sized hPQ (sizeOf n) n (le_refl _) h

/-! ## The master invariant of the main loop -/

/-- Every produced node records the stripped text, the indentation and the
type tag of one of the input lines accepted by the classifier. -/
def NodeFromLines (lines : List Line) (n : DocumentNode) : Prop :=
  ∃ l, l ∈ lines ∧ (matchFunc l || matchClass l) = true ∧
    n.identifier.content = strip l ∧ n.indent_level = indentOf l ∧
    n.identifier.type =
      (if matchFunc l then TokenType.FUNC_SIGNATURE else TokenType.CLASS_NAME)

theorem NodeFromLines_mono {lines lines2 : List Line}
    (hsub : ∀ l ∈ lines2, l ∈ lines) :
    ∀ m, NodeFromLines lines2 m → NodeFromLines lines m := by
  rintro m ⟨l, hl, hrest⟩
  exact ⟨l, hsub l hl, hrest⟩

theorem attachDoc_snd_ge {lines : List Line} {i indent : Nat}
    (h : (attachDoc lines i indent).1.isSome = true) :
    i + 1 ≤ (attachDoc lines i indent).2 := by
  obtain ⟨h1, -, -, -⟩ := skipBlank_spec lines (i + 1)
  by_cases hl : skipBlank lines (i + 1) < lines.length
  · by_cases hg : (decide (indent < indentOf (lines.getD (skipBlank lines (i + 1)) [])) &&
        containsTriple (lines.getD (skipBlank lines (i + 1)) [])) = true
    · rw [attachDoc_guard_true hl hg] at h ⊢
      have h2 := extract_snd_ge h
      omega
    · rw [attachDoc_guard_false hl (eq_false_of_not_true hg)] at h
      cases h
  · rw [attachDoc_oob hl] at h
    cases h

theorem parseFromF_inv :
    ∀ (f : Nat) (lines : List Line) (p : Int) (i : Nat), lines.length - i < f →
      ∀ n ∈ parseFromF f lines p i,
        EveryNode (NodeFromLines lines) n ∧ (0 ≤ p → p < (n.indent_level : Int)) ∧
        wellNested n = true := by
  intro f
  induction f with
  | zero => intro lines p i hf; omega
  | succ f ih =>
    intro lines p i hf n hn
    by_cases hi : i < lines.length
    case neg =>
      rw [parseFromF_end hi] at hn
      cases hn
    case pos =>
    by_cases hs : (isBlank (lines.getD i []) || isComment (lines.getD i [])) = true
    · rw [parseFromF_skip hi hs] at hn
      exact ih lines p (i + 1) (by omega) n hn
    · rw [Bool.not_eq_true] at hs
      by_cases hd : (matchFunc (lines.getD i []) || matchClass (lines.getD i [])) = true
      case neg =>
        rw [parseFromF_other hi hs (eq_false_of_not_true hd)] at hn
        exact ih lines p (i + 1) (by omega) n hn
      case pos =>
      by_cases hbr : 0 ≤ p ∧ ((indentOf (lines.getD i []) : Int)) ≤ p
      · rw [parseFromF_break hi hs hd hbr] at hn
        cases hn
      · obtain ⟨dn, hdn⟩ : ∃ dn, dn = attachDoc lines i (indentOf (lines.getD i [])) :=
          ⟨_, rfl⟩
        obtain ⟨start, hst⟩ : ∃ s, s = if truthy dn.1 then dn.2 else i + 1 := ⟨_, rfl⟩
        obtain ⟨bc, hbc⟩ : ∃ b, b = collectBody lines start (indentOf (lines.getD i [])) :=
          ⟨_, rfl⟩
        rw [parseFromF_node hi hs hd hbr hdn hst hbc] at hn
        have hstart : i + 1 ≤ start := by
          by_cases ht : truthy dn.1 = true
          · rw [hst, if_pos ht]
            rw [hdn] at ht ⊢
            exact attachDoc_snd_ge ((attachDoc_truthy lines i _) ▸ ht)
          · rw [hst, if_neg ht]
        have hspec := collectBody_spec lines start (indentOf (lines.getD i []))
        rw [← hbc] at hspec
        obtain ⟨hcb1, hcb2, hcb3, hcb4⟩ := hspec
        have hchild : ∀ c ∈ (if bc.1.any (fun l => !isBlank l) then
            parseFromF f bc.1 (indentOf (lines.getD i []) : Int) 0 else []),
            EveryNode (NodeFromLines lines) c ∧
              indentOf (lines.getD i []) < c.indent_level ∧ wellNested c = true := by
          intro c hc
          by_cases hany : bc.1.any (fun l => !isBlank l) = true
          · rw [if_pos hany] at hc
            obtain ⟨he, hp, hw⟩ := ih bc.1 _ 0 (by omega) c hc
            refine ⟨EveryNode_mono (NodeFromLines_mono ?_) c he, ?_, hw⟩
            · intro l hl
              exact (collectBody_sublist lines start (indentOf (lines.getD i []))).subset
                (hbc ▸ hl)
            · have hp2 := hp (Int.natCast_nonneg _)
              exact_mod_cast hp2
          · rw [if_neg hany] at hc
            cases hc
        rcases List.mem_cons.mp hn with rfl | hn
        · refine ⟨⟨?_, ?_⟩, ?_, ?_⟩
          · refine ⟨lines.getD i [], ?_, hd, rfl, rfl, rfl⟩
            rw [List.getD_eq_getElem lines [] hi]
            exact List.getElem_mem hi
          · exact EveryNodeL_iff.mpr fun c hc => (hchild c hc).1
          · intro hp
            by_contra hcon
            rw [DocumentNode.indent_level] at hcon
            exact hbr ⟨hp, by omega⟩
          · rw [wellNested]
            exact wnList_iff.mpr fun c hc => ⟨(hchild c hc).2.1, (hchild c hc).2.2⟩
        · exact ih lines p bc.2 (by omega) n hn

theorem wellNested_everyNode :
    ∀ (k : Nat) (n : DocumentNode), sizeOf n ≤ k → wellNested n = true →
      EveryNode (fun m => ∀ c ∈ m.children, m.indent_level < c.indent_level) n := by
  intro k
  induction k with
  | zero =>
    intro n hs h
    cases n with
    | mk t d ch ind => simp at hs
  | succ k ih =>
    intro n hs h
    cases n with
    | mk t d ch ind =>
      rw [wellNested] at h
      have hall := wnList_iff.mp h
      refine ⟨fun c hc => (hall c hc).1, EveryNodeL_iff.mpr fun c hc => ?_⟩
      have hc2 : c ∈ ch := hc
      have h1 := List.sizeOf_lt_of_mem hc2
      have h2 : sizeOf (DocumentNode.mk t d ch ind) =
          1 + sizeOf t + sizeOf d + sizeOf ch + sizeOf ind := by simp
      exact ih c (by omega) (hall c hc2).2

/-- C5: in every forest returned by parse, every node's children all record an
`indent_level` strictly greater than the node's own, recursively at every
depth. -/
theorem C5_depth_invariant (lines : List Line) (p : Int) (n : DocumentNode)
    (hn : n ∈ parse lines p) :
    EveryNode (fun m => ∀ c ∈ m.children, m.indent_level < c.indent_level) n :=
  wellNested_everyNode (sizeOf n) n (le_refl _)
    (parseFromF_inv (lines.length + 1) lines p 0 (by omega) n hn).2.2

/-- C5 witness at a concrete input. -/
theorem C5_depth_invariant_witness :
    EveryNode (fun m => ∀ c ∈ m.children, m.indent_level < c.indent_level)
      (DocumentNode.mk (Token.mk (str "class A:") TokenType.CLASS_NAME) none
        [DocumentNode.mk (Token.mk (str "def m(self):") TokenType.FUNC_SIGNATURE)
          none [] 4] 0) :=
  C5_depth_invariant [str "class A:", str "    def m(self):"] (-1) _
    (List.Mem.head _)

/-- C10: every node's identifier content is one of the input lines with its
leading and trailing whitespace removed (`strip`), and in particular it never
begins with whitespace (its leading-whitespace count is 0). -/
theorem C10_identifier_stripped (lines : List Line) (p : Int) (n : DocumentNode)
    (hn : n ∈ parse lines p) :
    EveryNode (fun m => (∃ l ∈ lines, m.identifier.content = strip l) ∧
      indentOf m.identifier.content = 0) n := by
  have h := (parseFromF_inv (lines.length + 1) lines p 0 (by omega) n hn).1
  refine EveryNode_mono ?_ n h
  rintro m ⟨l, hl, -, hcontent, -, -⟩
  exact ⟨⟨l, hl, hcontent⟩, by rw [hcontent, indentOf_strip]⟩

/-- C10 witness at a concrete input. -/
theorem C10_identifier_stripped_witness :
    EveryNode (fun m =>
      (∃ l ∈ [str "   def f( x ):  "], m.identifier.content = strip l) ∧
      indentOf m.identifier.content = 0)
      (DocumentNode.mk (Token.mk (str "def f( x ):") TokenType.FUNC_SIGNATURE)
        none [] 3) :=
  C10_identifier_stripped [str "   def f( x ):  "] (-1) _ (List.Mem.head _)

/-- C2 as stated is false: for a definition line indented by 2 columns the
node records `indent_level = 2`, but the stored identifier is the stripped
line, so re-running the Line Classifier on it reports indentation 0. -/
theorem C2_counterexample :
    parse [str "  def f():"] =
      [DocumentNode.mk (Token.mk (str "def f():") TokenType.FUNC_SIGNATURE)
        none [] 2] ∧
    classifyLine (str "def f():") = some (0, TokenType.FUNC_SIGNATURE) ∧
    classifyLine (str "def f():") ≠ some (2, TokenType.FUNC_SIGNATURE) :=
  ⟨rfl, rfl, by decide⟩

/-- C2 amended: re-running the Line Classifier on any stored identifier line
yields a match with the same type tag, but with indentation width 0 (the
identifier is stored stripped), which equals the recorded indent_level only
for definitions at the leftmost column. -/
theorem C2_amended (lines : List Line) (p : Int) (n : DocumentNode)
    (hn : n ∈ parse lines p) :
    EveryNode (fun m =>
      classifyLine m.identifier.content = some (0, m.identifier.type)) n := by
  have h := (parseFromF_inv (lines.length + 1) lines p 0 (by omega) n hn).1
  refine EveryNode_mono ?_ n h
  rintro m ⟨l, hl, hm, hcontent, -, hty⟩
  rw [hcontent, hty, classifyLine]
  by_cases hf : matchFunc l = true
  · rw [if_pos (matchFunc_strip hf), if_pos hf, indentOf_strip]
  · rw [Bool.not_eq_true] at hf
    have hc : matchClass l = true := by simpa [hf] using hm
    rw [if_neg (by rw [matchFunc_strip_false_of_matchClass hc]; simp),
      if_pos (matchClass_strip hc), if_neg (by rw [hf]; simp), indentOf_strip]

/-- C2 amended, witness at a concrete input. -/
theorem C2_amended_witness :
    EveryNode (fun m =>
      classifyLine m.identifier.content = some (0, m.identifier.type))
      (DocumentNode.mk (Token.mk (str "def f():") TokenType.FUNC_SIGNATURE)
        none [] 2) :=
  C2_amended [str "  def f():"] (-1) _ (List.Mem.head _)

/-- C9: the cosmetic transform of the console renderer is an exact no-op.
For any signature ending in `):`, the code `signature[:-1] + ":"` removes the
final colon and appends a colon again, so the displayed signature is unchanged
and still ends with `):` — the closing parenthesis is never stripped.  The
second conjunct evaluates the code at the failing input `"def f():"`. -/
theorem C9_display_noop :
    (∀ sig : Line, [')', ':'].isSuffixOf sig = true → displaySignature sig = sig) ∧
    displaySignature (str "def f():") = str "def f():" ∧
    [')', ':'].isSuffixOf (displaySignature (str "def f():")) = true := by
  refine ⟨?_, rfl, rfl⟩
  intro sig hs
  rw [displaySignature, if_pos hs]
  obtain ⟨pre, hpre⟩ := List.isSuffixOf_iff_suffix.mp hs
  rw [← hpre, show pre ++ [')', ':'] = (pre ++ [')']) ++ [':'] by simp,
    List.dropLast_concat]

/-- C9 witness: the transform applied to `"def f():"` returns it unchanged. -/
theorem C9_display_noop_witness :
    displaySignature (str "def f():") = str "def f():" :=
  C9_display_noop.1 (str "def f():") rfl

theorem bodyStart_ge {lines : List Line} {i indent : Nat} (dn : Option Line × Nat)
    (hdn : dn = attachDoc lines i indent) :
    i + 1 ≤ (if truthy dn.1 then dn.2 else i + 1) := by
  by_cases ht : truthy dn.1 = true
  · rw [if_pos ht]
    subst hdn
    exact attachDoc_snd_ge ((attachDoc_truthy lines i indent) ▸ ht)
  · rw [if_neg ht]

theorem parseFromF_congr :
    ∀ (f g : Nat) (lines : List Line) (p : Int) (i : Nat),
      lines.length - i < f → lines.length - i < g →
      parseFromF f lines p i = parseFromF g lines p i := by
  intro f
  induction f with
  | zero => intro g lines p i hf hg; omega
  | succ f ih =>
    intro g lines p i hf hg
    obtain ⟨g, rfl⟩ : ∃ g2, g = g2 + 1 := ⟨g - 1, by omega⟩
    by_cases hi : i < lines.length
    case neg => rw [parseFromF_end hi, parseFromF_end hi]
    case pos =>
    by_cases hs : (isBlank (lines.getD i []) || isComment (lines.getD i [])) = true
    · rw [parseFromF_skip hi hs, parseFromF_skip hi hs]
      exact ih g lines p (i + 1) (by omega) (by omega)
    · rw [Bool.not_eq_true] at hs
      by_cases hd : (matchFunc (lines.getD i []) || matchClass (lines.getD i [])) = true
      case neg =>
        rw [parseFromF_other hi hs (eq_false_of_not_true hd),
          parseFromF_other hi hs (eq_false_of_not_true hd)]
        exact ih g lines p (i + 1) (by omega) (by omega)
      case pos =>
      by_cases hbr : 0 ≤ p ∧ ((indentOf (lines.getD i []) : Int)) ≤ p
      · rw [parseFromF_break hi hs hd hbr, parseFromF_break hi hs hd hbr]
      · obtain ⟨dn, hdn⟩ : ∃ dn, dn = attachDoc lines i (indentOf (lines.getD i [])) :=
          ⟨_, rfl⟩
        obtain ⟨start, hst⟩ : ∃ s, s = if truthy dn.1 then dn.2 else i + 1 := ⟨_, rfl⟩
        obtain ⟨bc, hbc⟩ : ∃ b, b = collectBody lines start (indentOf (lines.getD i [])) :=
          ⟨_, rfl⟩
        rw [parseFromF_node hi hs hd hbr hdn hst hbc,
          parseFromF_node hi hs hd hbr hdn hst hbc]
        have hstart : i + 1 ≤ start := hst ▸ bodyStart_ge dn hdn
        have hspec := collectBody_spec lines start (indentOf (lines.getD i []))
        rw [← hbc] at hspec
        obtain ⟨hcb1, -, -, hcb4⟩ := hspec
        congr 1
        · congr 1
          by_cases hany : bc.1.any (fun l => !isBlank l) = true
          · rw [if_pos hany, if_pos hany]
            exact ih g bc.1 _ 0 (by omega) (by omega)
          · rw [if_neg hany, if_neg hany]
        · exact ih g lines p bc.2 (by omega) (by omega)

/-! ## The Option-valued loop agrees with the total one -/

theorem parseFromO_end {f : Nat} {lines : List Line} {p : Int} {i : Nat}
    (hi : ¬ i < lines.length) : parseFromO (f + 1) lines p i = some [] := by
  rw [parseFromO, if_neg hi]

theorem parseFromO_skip {f : Nat} {lines : List Line} {p : Int} {i : Nat}
    (hi : i < lines.length)
    (hs : (isBlank (lines.getD i []) || isComment (lines.getD i [])) = true) :
    parseFromO (f + 1) lines p i = parseFromO f lines p (i + 1) := by
  rw [parseFromO, if_pos hi]
  dsimp only
  rw [if_pos hs]

theorem parseFromO_other {f : Nat} {lines : List Line} {p : Int} {i : Nat}
    (hi : i < lines.length)
    (hs : (isBlank (lines.getD i []) || isComment (lines.getD i [])) = false)
    (hd : (matchFunc (lines.getD i []) || matchClass (lines.getD i [])) = false) :
    parseFromO (f + 1) lines p i = parseFromO f lines p (i + 1) := by
  rw [parseFromO, if_pos hi]
  dsimp only
  rw [if_neg (by rw [hs]; simp), if_neg (by rw [hd]; simp)]

theorem parseFromO_break {f : Nat} {lines : List Line} {p : Int} {i : Nat}
    (hi : i < lines.length)
    (hs : (isBlank (lines.getD i []) || isComment (lines.getD i [])) = false)
    (hd : (matchFunc (lines.getD i []) || matchClass (lines.getD i [])) = true)
    (hbr : 0 ≤ p ∧ (indentOf (lines.getD i []) : Int) ≤ p) :
    parseFromO (f + 1) lines p i = some [] := by
  rw [parseFromO, if_pos hi]
  dsimp only
  rw [if_neg (by rw [hs]; simp), if_pos hd, if_pos hbr]

theorem parseFromO_node {f : Nat} {lines : List Line} {p : Int} {i : Nat}
    (hi : i < lines.length)
    (hs : (isBlank (lines.getD i []) || isComment (lines.getD i [])) = false)
    (hd : (matchFunc (lines.getD i []) || matchClass (lines.getD i [])) = true)
    (hbr : ¬ (0 ≤ p ∧ (indentOf (lines.getD i []) : Int) ≤ p))
    {dn : Option Line × Nat} (hdn : dn = attachDoc lines i (indentOf (lines.getD i [])))
    {start : Nat} (hst : start = if truthy dn.1 then dn.2 else i + 1)
    {bc : List Line × Nat} (hbc : bc = collectBody lines start (indentOf (lines.getD i []))) :
    parseFromO (f + 1) lines p i =
      (match (if bc.1.any (fun l => !isBlank l) then
          parseFromO f bc.1 (indentOf (lines.getD i []) : Int) 0 else some []) with
        | none => none
        | some children =>
          match parseFromO f lines p bc.2 with
          | none => none
          | some rest =>
            some (DocumentNode.mk
              (Token.mk (strip (lines.getD i []))
                (if matchFunc (lines.getD i []) then TokenType.FUNC_SIGNATURE
                  else TokenType.CLASS_NAME))
              dn.1 children (indentOf (lines.getD i [])) :: rest)) := by
  subst hdn
  subst hst
  subst hbc
  rw [parseFromO, if_pos hi]
  dsimp only
  rw [if_neg (by rw [hs]; simp), if_pos hd, if_neg hbr]

theorem parseFromO_eq :
    ∀ (f : Nat) (lines : List Line) (p : Int) (i : Nat), lines.length - i < f →
      parseFromO f lines p i = some (parseFromF f lines p i) := by
  intro f
  induction f with
  | zero => intro lines p i hf; omega
  | succ f ih =>
    intro lines p i hf
    by_cases hi : i < lines.length
    case neg => rw [parseFromO_end hi, parseFromF_end hi]
    case pos =>
    by_cases hs : (isBlank (lines.getD i []) || isComment (lines.getD i [])) = true
    · rw [parseFromO_skip hi hs, parseFromF_skip hi hs]
      exact ih lines p (i + 1) (by omega)
    · rw [Bool.not_eq_true] at hs
      by_cases hd : (matchFunc (lines.getD i []) || matchClass (lines.getD i [])) = true
      case neg =>
        rw [parseFromO_other hi hs (eq_false_of_not_true hd),
          parseFromF_other hi hs (eq_false_of_not_true hd)]
        exact ih lines p (i + 1) (by omega)
      case pos =>
      by_cases hbr : 0 ≤ p ∧ ((indentOf (lines.getD i []) : Int)) ≤ p
      · rw [parseFromO_break hi hs hd hbr, parseFromF_break hi hs hd hbr]
      · obtain ⟨dn, hdn⟩ : ∃ dn, dn = attachDoc lines i (indentOf (lines.getD i [])) :=
          ⟨_, rfl⟩
        obtain ⟨start, hst⟩ : ∃ s, s = if truthy dn.1 then dn.2 else i + 1 := ⟨_, rfl⟩
        obtain ⟨bc, hbc⟩ : ∃ b, b = collectBody lines start (indentOf (lines.getD i [])) :=
          ⟨_, rfl⟩
        rw [parseFromO_node hi hs hd hbr hdn hst hbc,
          parseFromF_node hi hs hd hbr hdn hst hbc]
        have hstart : i + 1 ≤ start := hst ▸ bodyStart_ge dn hdn
        have hspec := collectBody_spec lines start (indentOf (lines.getD i []))
        rw [← hbc] at hspec
        obtain ⟨hcb1, -, -, hcb4⟩ := hspec
        have hch : (if bc.1.any (fun l => !isBlank l) then
            parseFromO f bc.1 (indentOf (lines.getD i []) : Int) 0 else some []) =
            some (if bc.1.any (fun l => !isBlank l) then
              parseFromF f bc.1 (indentOf (lines.getD i []) : Int) 0 else []) := by
          by_cases hany : bc.1.any (fun l => !isBlank l) = true
          · rw [if_pos hany, if_pos hany, ih bc.1 _ 0 (by omega)]
          · rw [if_neg hany, if_neg hany]
        rw [hch, ih lines p bc.2 (by omega)]

/-- C6: parse is total.  The Option-valued instrumented loop, which returns
`none` exactly when its step budget runs out, completes with the budget
`lines.length + 1` on every finite input and parent floor, returning the
parsed forest: the loop always advances and each recursive call runs on a
strictly smaller line range. -/
theorem C6_parse_total (lines : List Line) (p : Int) :
    parseFromO (lines.length + 1) lines p 0 = some (parse lines p) :=
  parseFromO_eq (lines.length + 1) lines p 0 (by omega)

theorem def_not_blank_comment {l : Line}
    (hd : (matchFunc l || matchClass l) = true) :
    (isBlank l || isComment l) = false := by
  rcases Bool.or_eq_true_iff.mp hd with h | h
  · rw [isBlank_false_of_matchFunc h, isComment_false_of_matchFunc h]
    rfl
  · rw [isBlank_false_of_matchClass h, isComment_false_of_matchClass h]
    rfl

theorem isBlank_false_of_def {l : Line}
    (hd : (matchFunc l || matchClass l) = true) : isBlank l = false := by
  rcases Bool.or_eq_true_iff.mp hd with h | h
  · exact isBlank_false_of_matchFunc h
  · exact isBlank_false_of_matchClass h

/-- C7 as stated fails on a shallower follower: here `def m` is immediately
followed by `def t` at shallower indentation.  `def m` does get empty children
and description, but `def t` does not become its next sibling: it becomes a
sibling of `class A` (the forest is `[class A [def m], def t]`, and the class
node has exactly one child). -/
theorem C7_counterexample :
    parse [str "class A:", str "    def m(self):", str "def t():"] =
      [DocumentNode.mk (Token.mk (str "class A:") TokenType.CLASS_NAME) none
        [DocumentNode.mk (Token.mk (str "def m(self):") TokenType.FUNC_SIGNATURE)
          none [] 4] 0,
        DocumentNode.mk (Token.mk (str "def t():") TokenType.FUNC_SIGNATURE)
          none [] 0] ∧
    (parse [str "class A:", str "    def m(self):", str "def t():"]).map
      (fun n => n.children.length) = [1, 0] :=
  ⟨rfl, rfl⟩

/-- C7 amended: a definition line immediately followed by another definition
line at the same or shallower indentation yields a node with empty children
and empty description, and the loop resumes at the very next line; the
follower becomes the next sibling exactly when it clears the current scope's
parent-indent floor (always at the same indentation within the scope, and
always at top level, as in the concrete two-sibling example), while a
follower at or below the floor closes the scope instead. -/
theorem C7_amended :
    (∀ (f : Nat) (lines : List Line) (p : Int) (i : Nat),
      lines.length - i < f → i + 1 < lines.length →
      (matchFunc (lines.getD i []) || matchClass (lines.getD i [])) = true →
      (matchFunc (lines.getD (i + 1) []) || matchClass (lines.getD (i + 1) [])) = true →
      indentOf (lines.getD (i + 1) []) ≤ indentOf (lines.getD i []) →
      ¬ (0 ≤ p ∧ (indentOf (lines.getD i []) : Int) ≤ p) →
      parseFromF f lines p i =
        DocumentNode.mk
          (Token.mk (strip (lines.getD i []))
            (if matchFunc (lines.getD i []) then TokenType.FUNC_SIGNATURE
              else TokenType.CLASS_NAME)) none [] (indentOf (lines.getD i [])) ::
        parseFromF f lines p (i + 1)) ∧
    parse [str "def f():", str "def g():"] =
      [DocumentNode.mk (Token.mk (str "def f():") TokenType.FUNC_SIGNATURE) none [] 0,
        DocumentNode.mk (Token.mk (str "def g():") TokenType.FUNC_SIGNATURE) none [] 0] := by
  constructor
  · intro f lines p i hf hi1 hdi hdi1 hind hbr
    have hi : i < lines.length := by omega
    obtain ⟨g, rfl⟩ : ∃ g, f = g + 1 := ⟨f - 1, by omega⟩
    have hs : (isBlank (lines.getD i []) || isComment (lines.getD i [])) = false :=
      def_not_blank_comment hdi
    have hnb1 : isBlank (lines.getD (i + 1) []) = false := isBlank_false_of_def hdi1
    have hskip : skipBlank lines (i + 1) = i + 1 := skipBlank_eq_self hi1 hnb1
    have hguard : (decide (indentOf (lines.getD i []) <
        indentOf (lines.getD (skipBlank lines (i + 1)) [])) &&
        containsTriple (lines.getD (skipBlank lines (i + 1)) [])) = false := by
      rw [hskip, decide_eq_false (by omega), Bool.false_and]
    have hdn : attachDoc lines i (indentOf (lines.getD i [])) = (none, i + 1) := by
      rw [attachDoc_guard_false (by rw [hskip]; exact hi1) hguard, hskip]
    have hbcs : collectBody lines (i + 1) (indentOf (lines.getD i [])) = ([], i + 1) :=
      collectBody_stop hi1 hnb1 hind
    rw [parseFromF_node hi hs hdi hbr rfl rfl rfl, hdn]
    simp only [truthy, Option.getD_none, List.isEmpty_nil, Bool.not_true,
      Bool.false_eq_true, if_false, hbcs, List.any_nil]
    rw [parseFromF_congr g (g + 1) lines p (i + 1) (by omega) (by omega)]
  · rfl

/-- C7 amended, witness: a concrete instantiation of the general equation at
the input with two adjacent top-level definitions. -/
theorem C7_amended_witness :
    parseFromF 3 [str "def f():", str "def g():"] (-1) 0 =
      DocumentNode.mk
        (Token.mk (strip ([str "def f():", str "def g():"].getD 0 []))
          (if matchFunc ([str "def f():", str "def g():"].getD 0 [])
            then TokenType.FUNC_SIGNATURE else TokenType.CLASS_NAME))
        none [] (indentOf ([str "def f():", str "def g():"].getD 0 [])) ::
      parseFromF 3 [str "def f():", str "def g():"] (-1) 1 :=
  C7_amended.1 3 [str "def f():", str "def g():"] (-1) 0 (by decide) (by decide)
    (by decide) (by decide) (by decide) (by decide)

/-- C3: a node's description is attached (non-empty) exactly when the first
non-blank line after the definition line is indented strictly deeper than the
definition and its stripped text opens a recognized triple-quote delimiter;
otherwise the description stays `none` and no lines are consumed: the node's
body range and the sibling scan both resume from `i + 1`, the line right
after the definition, so the candidate line is left in place. -/
theorem C3_docstring_adjacency (f : Nat) (lines : List Line) (p : Int) (i : Nat)
    (hf : lines.length - i < f) (hi : i < lines.length)
    (hd : (matchFunc (lines.getD i []) || matchClass (lines.getD i [])) = true)
    (hbr : ¬ (0 ≤ p ∧ (indentOf (lines.getD i []) : Int) ≤ p)) :
    ∃ node tl, parseFromF f lines p i = node :: tl ∧
      (node.description ≠ none ↔
        ∃ j, FirstNonBlankAfter lines i j ∧
          indentOf (lines.getD i []) < indentOf (lines.getD j []) ∧
          (tripleD.isPrefixOf (strip (lines.getD j [])) = true ∨
            tripleS.isPrefixOf (strip (lines.getD j [])) = true)) ∧
      (node.description = none →
        node.children =
          (if (collectBody lines (i + 1) (indentOf (lines.getD i []))).1.any
              (fun l => !isBlank l) then
            parseFromF f (collectBody lines (i + 1) (indentOf (lines.getD i []))).1
              (indentOf (lines.getD i []) : Int) 0
          else []) ∧
        tl = parseFromF f lines p
          (collectBody lines (i + 1) (indentOf (lines.getD i []))).2) := by
  obtain ⟨g, rfl⟩ : ∃ g, f = g + 1 := ⟨f - 1, by omega⟩
  have hs : (isBlank (lines.getD i []) || isComment (lines.getD i [])) = false :=
    def_not_blank_comment hd
  rw [parseFromF_node hi hs hd hbr rfl rfl rfl]
  refine ⟨_, _, rfl, ?_, ?_⟩
  · rw [DocumentNode.description]
    have hiff := attachDoc_fst_isSome_iff lines i (indentOf (lines.getD i []))
    constructor
    · intro hne
      obtain ⟨h1, h2, h3⟩ := hiff.mp (Option.ne_none_iff_isSome.mp hne)
      exact ⟨skipBlank lines (i + 1),
        (firstNonBlankAfter_iff lines i (skipBlank lines (i + 1))).mpr ⟨h1, rfl⟩, h2, h3⟩
    · rintro ⟨j, hfnb, hind, hop⟩
      obtain ⟨h1, rfl⟩ := (firstNonBlankAfter_iff lines i j).mp hfnb
      exact Option.isSome_iff_ne_none.mp (hiff.mpr ⟨h1, hind, hop⟩)
  · intro hnone
    rw [DocumentNode.description] at hnone
    have hstart : (if truthy (attachDoc lines i (indentOf (lines.getD i []))).1 then
        (attachDoc lines i (indentOf (lines.getD i []))).2 else i + 1) = i + 1 := by
      rw [hnone]
      rfl
    rw [DocumentNode.children, hstart]
    obtain ⟨hcb1, -, -, hcb4⟩ :=
      collectBody_spec lines (i + 1) (indentOf (lines.getD i []))
    constructor
    · by_cases hany : (collectBody lines (i + 1) (indentOf (lines.getD i []))).1.any
          (fun l => !isBlank l) = true
      · rw [if_pos hany, if_pos hany]
        exact parseFromF_congr g (g + 1)
          (collectBody lines (i + 1) (indentOf (lines.getD i []))).1
          (indentOf (lines.getD i []) : Int) 0 (by omega) (by omega)
      · rw [if_neg hany, if_neg hany]
    · exact parseFromF_congr g (g + 1) lines p
        (collectBody lines (i + 1) (indentOf (lines.getD i []))).2
        (by omega) (by omega)

/-- C3 witness: the full conclusion instantiated at an input whose definition
line is followed by a plain body line (no docstring). -/
theorem C3_docstring_adjacency_witness :
    ∃ node tl,
      parseFromF 3 [str "def f():", str "    pass"] (-1) 0 = node :: tl ∧
      (node.description ≠ none ↔
        ∃ j, FirstNonBlankAfter [str "def f():", str "    pass"] 0 j ∧
          indentOf ([str "def f():", str "    pass"].getD 0 []) <
            indentOf ([str "def f():", str "    pass"].getD j []) ∧
          (tripleD.isPrefixOf (strip ([str "def f():",
            str "    pass"].getD j [])) = true ∨
            tripleS.isPrefixOf (strip ([str "def f():",
              str "    pass"].getD j [])) = true)) ∧
      (node.description = none →
        node.children =
          (if (collectBody [str "def f():", str "    pass"] (0 + 1)
              (indentOf ([str "def f():", str "    pass"].getD 0 []))).1.any
              (fun l => !isBlank l) then
            parseFromF 3 (collectBody [str "def f():", str "    pass"] (0 + 1)
                (indentOf ([str "def f():", str "    pass"].getD 0 []))).1
              ((indentOf ([str "def f():", str "    pass"].getD 0 [])) : Int) 0
          else []) ∧
        tl = parseFromF 3 [str "def f():", str "    pass"] (-1)
          (collectBody [str "def f():", str "    pass"] (0 + 1)
            (indentOf ([str "def f():", str "    pass"].getD 0 []))).2) :=
  C3_docstring_adjacency 3 [str "def f():", str "    pass"] (-1) 0
    (by decide) (by decide) (by decide) (by decide)

/-! ## Coverage -/

theorem isDefLine_false_of_blank {l : Line} (hb : isBlank l = true) :
    isDefLine l = false := by
  have hl : lstrip l = [] := lstrip_eq_nil_of_blank hb
  rw [isDefLine, matchFunc, matchClass, hl]
  rfl

theorem isComment_elim {l : Line} (hc : isComment l = true) :
    ∃ t, strip l = '#' :: t := by
  unfold isComment at hc
  split at hc
  case h_1 x t heq => exact ⟨t, heq⟩
  case h_2 => cases hc

theorem isDefLine_false_of_comment {l : Line} (hc : isComment l = true) :
    isDefLine l = false := by
  obtain ⟨t, ht⟩ := isComment_elim hc
  cases hl : lstrip l with
  | nil =>
    rw [isDefLine, matchFunc, matchClass, hl]
    rfl
  | cons c u =>
    have hsl : strip l = c :: rstrip u := strip_of_lstrip_cons hl
    rw [hsl] at ht
    obtain ⟨rfl, -⟩ : c = '#' ∧ rstrip u = t := by
      injection ht with h1 h2
      exact ⟨h1, h2⟩
    rw [isDefLine, matchFunc, matchClass, hl]
    rfl

theorem defStrips_append (x y : List Line) :
    defStrips (x ++ y) = defStrips x ++ defStrips y := by
  rw [defStrips, defStrips, defStrips, List.filter_append, List.map_append]

theorem defStrips_cons_def {a : Line} (x : List Line) (h : isDefLine a = true) :
    defStrips (a :: x) = strip a :: defStrips x := by
  rw [defStrips, List.filter_cons, if_pos h]
  rfl

theorem defStrips_cons_nondef {a : Line} (x : List Line) (h : isDefLine a = false) :
    defStrips (a :: x) = defStrips x := by
  rw [defStrips, List.filter_cons, if_neg (by rw [h]; simp)]
  rfl

theorem defStrips_nil_of_blank {x : List Line} (h : ∀ l ∈ x, isBlank l = true) :
    defStrips x = [] := by
  rw [defStrips, List.filter_eq_nil_iff.mpr ?_]
  · rfl
  · intro a ha
    rw [isDefLine_false_of_blank (h a ha)]
    simp

theorem attachDoc_none_of_noTriple {lines : List Line} {i indent : Nat}
    (hnt : ∀ l ∈ lines, containsTriple l = false) :
    attachDoc lines i indent = (none, skipBlank lines (i + 1)) := by
  by_cases h : skipBlank lines (i + 1) < lines.length
  · have hmem : lines.getD (skipBlank lines (i + 1)) [] ∈ lines := by
      rw [List.getD_eq_getElem lines [] h]
      exact List.getElem_mem h
    exact attachDoc_guard_false h (by rw [hnt _ hmem, Bool.and_false])
  · exact attachDoc_oob h

theorem parseFromF_cover :
    ∀ (f : Nat) (lines : List Line) (p : Int) (i : Nat), lines.length - i < f →
      (∀ l ∈ lines, containsTriple l = false) →
      (∀ l ∈ lines, isBlank l = false → p < (indentOf l : Int)) →
      identsF (parseFromF f lines p i) = defStrips (lines.drop i) := by
  intro f
  induction f with
  | zero => intro lines p i hf _ _; omega
  | succ f ih =>
    intro lines p i hf hnt hfloor
    by_cases hi : i < lines.length
    case neg =>
      rw [parseFromF_end hi, List.drop_eq_nil_of_le (by omega), identsF]
      simp [defStrips]
    case pos =>
    have hmem : lines.getD i [] ∈ lines := by
      rw [List.getD_eq_getElem lines [] hi]
      exact List.getElem_mem hi
    have hdrop : lines.drop i = lines.getD i [] :: lines.drop (i + 1) := by
      rw [List.getD_eq_getElem lines [] hi]
      exact List.drop_eq_getElem_cons hi
    by_cases hs : (isBlank (lines.getD i []) || isComment (lines.getD i [])) = true
    · rw [parseFromF_skip hi hs, ih lines p (i + 1) (by omega) hnt hfloor, hdrop,
        defStrips_cons_nondef _ ?_]
      rcases Bool.or_eq_true_iff.mp hs with h | h
      · exact isDefLine_false_of_blank h
      · exact isDefLine_false_of_comment h
    · rw [Bool.not_eq_true] at hs
      by_cases hd : (matchFunc (lines.getD i []) || matchClass (lines.getD i [])) = true
      case neg =>
        rw [parseFromF_other hi hs (eq_false_of_not_true hd),
          ih lines p (i + 1) (by omega) hnt hfloor, hdrop,
          defStrips_cons_nondef _ (show isDefLine _ = false from eq_false_of_not_true hd)]
      case pos =>
      have hnb : isBlank (lines.getD i []) = false := isBlank_false_of_def hd
      have hbr : ¬ (0 ≤ p ∧ (indentOf (lines.getD i []) : Int) ≤ p) := by
        have hfl := hfloor _ hmem hnb
        omega
      obtain ⟨dn, hdn⟩ : ∃ dn, dn = attachDoc lines i (indentOf (lines.getD i [])) :=
        ⟨_, rfl⟩
      obtain ⟨start, hst⟩ : ∃ s, s = if truthy dn.1 then dn.2 else i + 1 := ⟨_, rfl⟩
      obtain ⟨bc, hbc⟩ : ∃ b, b = collectBody lines start (indentOf (lines.getD i [])) :=
        ⟨_, rfl⟩
      have hdn2 : dn = (none, skipBlank lines (i + 1)) := by
        rw [hdn, attachDoc_none_of_noTriple hnt]
      have hst2 : start = i + 1 := by
        rw [hst, hdn2]
        rfl
      have hspec := collectBody_spec lines start (indentOf (lines.getD i []))
      rw [← hbc] at hspec
      obtain ⟨hcb1, hcb2, hcb3, hcb4⟩ := hspec
      have hdrop2 : lines.drop (i + 1) = bc.1 ++ lines.drop bc.2 := by
        have hsplit := collectBody_append_drop lines start (indentOf (lines.getD i []))
        rw [← hbc, hst2] at hsplit
        exact hsplit
      rw [parseFromF_node hi hs hd hbr hdn hst hbc, identsF]
      have hchieq : identsF (if bc.1.any (fun l => !isBlank l) then
          parseFromF f bc.1 (indentOf (lines.getD i []) : Int) 0 else []) =
          defStrips bc.1 := by
        by_cases hany : bc.1.any (fun l => !isBlank l) = true
        · rw [if_pos hany]
          have hih := ih bc.1 (indentOf (lines.getD i []) : Int) 0 (by omega) ?_ ?_
          · rwa [List.drop_zero] at hih
          · intro l hl
            exact hnt l ((collectBody_sublist lines start
              (indentOf (lines.getD i []))).subset (hbc ▸ hl))
          · intro l hl hlb
            rcases hcb3 l hl with h | h
            · rw [hlb] at h
              cases h
            · exact_mod_cast h
        · rw [if_neg hany]
          have hall : ∀ l ∈ bc.1, isBlank l = true := by
            intro l hl
            by_contra hcon
            exact hany (List.any_eq_true.mpr
              ⟨l, hl, by rw [eq_false_of_not_true hcon]; rfl⟩)
          rw [identsF]
          exact (defStrips_nil_of_blank hall).symm
      rw [hchieq, ih lines p bc.2 (by omega) hnt hfloor, hdrop,
        defStrips_cons_def _ (show isDefLine _ = true from hd), hdrop2, defStrips_append]

/-- C1 as stated fails: a definition line consumed inside a multi-line
docstring block is lost.  In this input the line `    def g():` matches the
function pattern and is neither blank nor a comment, yet the whole forest is a
single node for `def f():` with no children — the inner definition appears in
the docstring text instead of as a node identifier. -/
theorem C1_counterexample :
    matchFunc (str "    def g():") = true ∧
    isBlank (str "    def g():") = false ∧
    isComment (str "    def g():") = false ∧
    parse [str "def f():", str "    \"\"\"start", str "    def g():",
        str "    end\"\"\""] =
      [DocumentNode.mk (Token.mk (str "def f():") TokenType.FUNC_SIGNATURE)
        (some (str "\"\"\"start\ndef g():\nend\"\"\"")) [] 0] :=
  ⟨rfl, rfl, rfl, rfl⟩

/-- C1 amended: when no input line contains a triple-quote delimiter (so no
docstring block can swallow a definition line), the identifiers of the forest
returned by parse, read in depth-first order, are exactly the stripped
definition-pattern lines of the input in order — every such line appears as
exactly one node's identifier, none is lost and none is duplicated. -/
theorem C1_amended (lines : List Line)
    (hnt : ∀ l ∈ lines, containsTriple l = false) :
    identsF (parse lines (-1)) = defStrips lines := by
  have h := parseFromF_cover (lines.length + 1) lines (-1) 0 (by omega) hnt ?_
  · rwa [List.drop_zero] at h
  · intro l hl hb
    have hge : (0 : Int) ≤ indentOf l := Int.natCast_nonneg _
    omega

/-- C1 amended, witness at a concrete triple-quote-free input. -/
theorem C1_amended_witness :
    identsF (parse [str "class A:", str "    def m(self):", str "def t():"] (-1)) =
      defStrips [str "class A:", str "    def m(self):", str "def t():"] :=
  C1_amended [str "class A:", str "    def m(self):", str "def t():"] (by decide)

/-! ## The extracted docstring text -/

/-- C4 as stated fails: a single-line docstring quoted with `'''` is stored
re-wrapped in `"""` delimiters, so the original delimiter markers are not
retained. -/
theorem C4_counterexample :
    parse [str "def f():", str "    '''doc'''"] =
      [DocumentNode.mk (Token.mk (str "def f():") TokenType.FUNC_SIGNATURE)
        (some (str "\"\"\"doc\"\"\"")) [] 0] ∧
    (str "\"\"\"doc\"\"\"") ≠ (str "'''doc'''") :=
  ⟨rfl, by decide⟩

/-- C4 amended: the extractor normalizes rather than copies verbatim.  Both
single-line forms return `"""` + enclosed text + `"""` (so the `'''` form does
not retain its delimiters), and the multi-line form returns the block's lines
each stripped of leading and trailing whitespace, joined by newlines, up to
and including the first line whose stripped text ends with the opening
delimiter. -/
theorem C4_amended (lines : List Line) (n : Nat) (hn : n < lines.length) :
    (singleMatch tripleD (strip (lines.getD n [])) = true →
      extract_docstring lines n =
        (some (tripleD ++ midOf (strip (lines.getD n [])) ++ tripleD), n + 1)) ∧
    (singleMatch tripleD (strip (lines.getD n [])) = false →
      singleMatch tripleS (strip (lines.getD n [])) = true →
      extract_docstring lines n =
        (some (tripleD ++ midOf (strip (lines.getD n [])) ++ tripleD), n + 1)) ∧
    (∀ j, singleMatch tripleD (strip (lines.getD n [])) = false →
      tripleD.isPrefixOf (strip (lines.getD n [])) = true →
      n < j → j < lines.length →
      (∀ k, n < k → k < j → tripleD.isSuffixOf (strip (lines.getD k [])) = false) →
      tripleD.isSuffixOf (strip (lines.getD j [])) = true →
      extract_docstring lines n =
        (some (joinNL (((lines.drop n).take (j + 1 - n)).map (fun l => strip l))),
          j + 1)) ∧
    (∀ j, singleMatch tripleS (strip (lines.getD n [])) = false →
      tripleD.isPrefixOf (strip (lines.getD n [])) = false →
      tripleS.isPrefixOf (strip (lines.getD n [])) = true →
      n < j → j < lines.length →
      (∀ k, n < k → k < j → tripleS.isSuffixOf (strip (lines.getD k [])) = false) →
      tripleS.isSuffixOf (strip (lines.getD j [])) = true →
      extract_docstring lines n =
        (some (joinNL (((lines.drop n).take (j + 1 - n)).map (fun l => strip l))),
          j + 1)) := by
  have hdrop : lines.drop n = lines.getD n [] :: lines.drop (n + 1) := by
    rw [List.getD_eq_getElem lines [] hn]
    exact List.drop_eq_getElem_cons hn
  refine ⟨fun h1 => extract_singleD hn h1,
    fun h1 h2 => extract_singleS hn h1 h2, ?_, ?_⟩
  · intro j h1 h3 hnj hjl hmiss hhit
    rw [extract_multiD hn h1 h3, scanClose,
      scanCloseF_found lines.length lines (n + 1) tripleD _ j (by omega)
        (by omega) hjl (fun k hk1 hk2 => hmiss k (by omega) hk2) hhit]
    dsimp only
    rw [hdrop, show j + 1 - n = (j + 1 - (n + 1)) + 1 by omega,
      List.take_succ_cons, List.map_cons, List.singleton_append]
  · intro j h2 h3 h4 hnj hjl hmiss hhit
    rw [extract_multiS hn h2 h3 h4, scanClose,
      scanCloseF_found lines.length lines (n + 1) tripleS _ j (by omega)
        (by omega) hjl (fun k hk1 hk2 => hmiss k (by omega) hk2) hhit]
    dsimp only
    rw [hdrop, show j + 1 - n = (j + 1 - (n + 1)) + 1 by omega,
      List.take_succ_cons, List.map_cons, List.singleton_append]

/-- C4 amended, witness: the multi-line conjunct fully instantiated at the
spec's own two-line example block. -/
theorem C4_amended_witness :
    extract_docstring [str "    \"\"\"start", str "    end\"\"\""] 0 =
      (some (joinNL ((([str "    \"\"\"start", str "    end\"\"\""].drop 0).take 2).map
        (fun l => strip l))), 2) :=
  (C4_amended [str "    \"\"\"start", str "    end\"\"\""] 0 (by decide)).2.2.1 1
    (by decide) (by decide) (by decide) (by decide)
    (fun k hk1 hk2 => absurd hk2 (by omega)) (by decide)

/-- C8: when a multi-line docstring's closing delimiter never appears before
the input ends, the block is closed at end of input: every remaining line
(stripped) is included in the returned text, a value is returned, and the
returned next index is `lines.length + 1`, past the whole input — no failure
path exists. -/
theorem C8_unterminated (lines : List Line) (n : Nat) (hn : n < lines.length) :
    (singleMatch tripleD (strip (lines.getD n [])) = false →
      tripleD.isPrefixOf (strip (lines.getD n [])) = true →
      (∀ k, n < k → k < lines.length →
        tripleD.isSuffixOf (strip (lines.getD k [])) = false) →
      extract_docstring lines n =
        (some (joinNL ((lines.drop n).map (fun l => strip l))),
          lines.length + 1)) ∧
    (singleMatch tripleS (strip (lines.getD n [])) = false →
      tripleD.isPrefixOf (strip (lines.getD n [])) = false →
      tripleS.isPrefixOf (strip (lines.getD n [])) = true →
      (∀ k, n < k → k < lines.length →
        tripleS.isSuffixOf (strip (lines.getD k [])) = false) →
      extract_docstring lines n =
        (some (joinNL ((lines.drop n).map (fun l => strip l))),
          lines.length + 1)) := by
  have hdrop : lines.drop n = lines.getD n [] :: lines.drop (n + 1) := by
    rw [List.getD_eq_getElem lines [] hn]
    exact List.drop_eq_getElem_cons hn
  constructor
  · intro h1 h3 hmiss
    rw [extract_multiD hn h1 h3, scanClose,
      scanCloseF_exhaust lines.length lines (n + 1) tripleD _ (by omega)
        (by omega) (fun k hk1 hk2 => hmiss k (by omega) hk2)]
    dsimp only
    rw [hdrop, List.map_cons, List.singleton_append]
  · intro h2 h3 h4 hmiss
    rw [extract_multiS hn h2 h3 h4, scanClose,
      scanCloseF_exhaust lines.length lines (n + 1) tripleS _ (by omega)
        (by omega) (fun k hk1 hk2 => hmiss k (by omega) hk2)]
    dsimp only
    rw [hdrop, List.map_cons, List.singleton_append]

/-- C8 witness: an unterminated `"""` block starting at line 0 of a two-line
input swallows the rest of the input and reports next index 3. -/
theorem C8_unterminated_witness :
    extract_docstring [str "    \"\"\"start", str "    more"] 0 =
      (some (joinNL (([str "    \"\"\"start", str "    more"].drop 0).map
        (fun l => strip l))), 3) :=
  (C8_unterminated [str "    \"\"\"start", str "    more"] 0 (by decide)).1
    (by decide) (by decide)
    (fun k hk1 hk2 => by
      have hk2b : k < 2 := by simpa using hk2
      have hk : k = 1 := by omega
      subst hk
      decide)

end DocGen
